import Mathlib

/-!
Verification of the RTL register-machine executor (`rtl_exec.c`) and the
stack-to-RTL translator (`rtl_gen.c`) of the ruby-compiler-survey rtl-mjit
subsystem, against its natural-language specification.

The development shallowly embeds the C code in Lean:

* a machine word (`VALUE`) is a `Nat` reduced modulo `2^64` wherever the C
  code relies on wrap-around; the Ruby tagging scheme (fixnum tag bit,
  flonum tag bits, `Qfalse`/`Qnil`/`Qtrue`/`Qundef` immediates) is embedded
  at the bit level;
* a runtime value (`RVal`) is either a tagged machine word (`RVal.val`) or
  an exact arbitrary-precision heap integer (`RVal.big`), abstracting the
  heap bignum that `rb_int2big` allocates by the integer it denotes (heap
  pointers are even, 8-aligned words, so every tag test on an `RVal.big` is
  `false`, exactly as on the pointer it abstracts);
* globals read by the handlers (redefinition flags, the MJIT flags, the
  object-model lookups `RBASIC_CLASS`, `RARRAY_LEN`, ...) are fields of an
  explicit environment record, universally quantified in the theorems;
* handlers that in C write through result pointers and out-parameters are
  functions returning a record of all their writes.

Functions keep the names of the C functions they embed.
-/

set_option maxHeartbeats 1000000

namespace RtlMjit

/-! ### Machine words and the Ruby tagging scheme -/

/-- Word size of the reference platform (64-bit, `sizeof(VALUE)*CHAR_BIT`). -/
def w64 : Nat := 2 ^ 64

/-- Most significant bit of a machine word, `(VALUE)1 << 63` in
`fix_num_plus` and `spec_fix_num_plus`. -/
def msb : Nat := 2 ^ 63

/-- Signed reinterpretation of a 64-bit machine word, the C cast to
`SIGNED_VALUE`. -/
def toSigned (v : Nat) : Int :=
  if v < 2 ^ 63 then (v : Int) else (v : Int) - 2 ^ 64

/-- `FIXNUM_MIN`. -/
def fixnumMin : Int := -(2 ^ 62)

/-- `FIXNUM_MAX`. -/
def fixnumMax : Int := 2 ^ 62 - 1

/-- `RB_FIXABLE`: the long fits in a tagged fixnum. -/
def FIXABLE (l : Int) : Bool := decide (fixnumMin ≤ l ∧ l ≤ fixnumMax)

/-- `LONG2FIX`: tag a long as a fixnum word, `(l << 1) | 1` with 64-bit
wrap-around. -/
def LONG2FIX (l : Int) : Nat := ((2 * l + 1) % (w64 : Int)).toNat

/-- `FIX2LONG`: arithmetic right shift by one of the signed
reinterpretation of the word (`RSHIFT((SIGNED_VALUE)x, 1)`); the floor
division by 2 is the arithmetic shift. -/
def FIX2LONG (v : Nat) : Int := Int.fdiv (toSigned v) 2

/-- `FIX2ULONG`: `FIX2LONG` reinterpreted as an unsigned long. -/
def FIX2ULONG (v : Nat) : Nat := ((FIX2LONG v) % (w64 : Int)).toNat

/-- Word-level `FIXNUM_P`: low bit set. -/
def wordFixnumP (v : Nat) : Bool := v % 2 == 1

/-- Word-level `FLONUM_P`: low two bits are `10`. -/
def wordFlonumP (v : Nat) : Bool := v % 4 == 2

/-- `Qfalse` immediate. -/
def QfalseW : Nat := 0x00

/-- `Qnil` immediate. -/
def QnilW : Nat := 0x08

/-- `Qtrue` immediate. -/
def QtrueW : Nat := 0x14

/-- `Qundef` immediate. -/
def QundefW : Nat := 0x34

/-- `RTEST`: true unless the word is `Qfalse` or `Qnil`
(`(v & ~Qnil) != 0`). -/
def RTEST (v : Nat) : Bool := (v &&& (w64 - 9)) != 0

/-- `NIL_P`. -/
def NIL_P (v : Nat) : Bool := v == QnilW

/-! ### Runtime values

A `VALUE` flowing through the arithmetic handlers is either a tagged
immediate word or a pointer to a heap bignum freshly made by
`rb_int2big`/`LONG2NUM`.  The bignum pointer is abstracted by the exact
integer the heap object denotes. -/

/-- A runtime value: a tagged machine word, or a heap bignum abstracted by
the exact integer it stores. -/
inductive RVal where
  | val : Nat → RVal
  | big : Int → RVal
deriving DecidableEq, Repr

/-- `Qundef` as a runtime value. -/
def Qundef : RVal := .val QundefW

/-- `Qtrue` as a runtime value. -/
def Qtrue : RVal := .val QtrueW

/-- `Qfalse` as a runtime value. -/
def Qfalse : RVal := .val QfalseW

/-- Machine-word bit pattern of a runtime value.  A heap bignum is an
8-aligned even pointer whose numeric bit pattern the embedding does not
track; it is only ever consumed inside fast paths that the `FIXNUM_P`
type guards restrict to tagged words. -/
def rvWord : RVal → Nat
  | .val v => v
  | .big _ => 0

/-- `FIXNUM_P` on a runtime value (heap pointers are even, so never
fixnums). -/
def FIXNUM_P : RVal → Bool
  | .val v => wordFixnumP v
  | .big _ => false

/-- `FLONUM_P` on a runtime value. -/
def FLONUM_P : RVal → Bool
  | .val v => wordFlonumP v
  | .big _ => false

/-- `FIXNUM_2_P`: both operands are fixnums (`a & b & 1`). -/
def FIXNUM_2_P (a b : RVal) : Bool := FIXNUM_P a && FIXNUM_P b

/-- `FLONUM_2_P`: both operands are flonums. -/
def FLONUM_2_P (a b : RVal) : Bool := FLONUM_P a && FLONUM_P b

/-- `SPECIAL_CONST_P`: an immediate (`v & 7` nonzero) or a false-ish word;
heap objects (including bignums) are not special constants. -/
def SPECIAL_CONST_P : RVal → Bool
  | .val v => ((v &&& 7) != 0) || !(RTEST v)
  | .big _ => false

/-- `rb_int2big`: allocate a heap bignum holding exactly the given
integer (object-model contract). -/
def rb_int2big (i : Int) : RVal := .big i

/-- `LONG2NUM`: a fixable long becomes a tagged fixnum, anything larger is
promoted exactly to a bignum (object-model contract). -/
def LONG2NUM (l : Int) : RVal := if FIXABLE l then .val (LONG2FIX l) else rb_int2big l

/-! ### Generic fixnum fast paths (`arithmf(...)` in `rtl_exec.c`) -/

/-- `fix_num_plus` (the `!LONG_LONG_VALUE` branch): add the tagged words
with the tag bit compensated (`op1 - 1 + op2`), detect signed overflow by
the sign-bit trick, and on overflow rebuild the exact sum and promote it
with `rb_int2big`. -/
def fix_num_plus (op1 op2 : Nat) : RVal :=
  let val : Nat := (op1 + op2 + (w64 - 1)) % w64
  if (((op1 ^^^ op2) ^^^ (w64 - 1)) &&& (op1 ^^^ val)) &&& msb ≠ 0 then
    rb_int2big (toSigned ((val >>> 1) ||| (op1 &&& msb)))
  else
    .val val

/-- `fix_num_minus`: untag, subtract exactly, retag with promotion
(`LONG2NUM(FIX2LONG(op1) - FIX2LONG(op2))`). -/
def fix_num_minus (op1 op2 : Nat) : RVal :=
  LONG2NUM (FIX2LONG op1 - FIX2LONG op2)

/-- Floor-division of two untagged fixnums with the
truncate-then-correct scheme shared by `rb_fix_divmod_fix` and
`spec_fix_num_div`. -/
def fixFloorDiv (l1 l2 : Int) : Int :=
  if (if 0 < l2 then l1.tmod l2 < 0 else 0 < l1.tmod l2) then l1.tdiv l2 - 1
  else l1.tdiv l2

/-- Floored remainder of two untagged fixnums with the
truncate-then-correct scheme shared by `rb_fix_divmod_fix` and
`spec_fix_num_mod`. -/
def fixFloorMod (l1 l2 : Int) : Int :=
  if (if 0 < l2 then l1.tmod l2 < 0 else 0 < l1.tmod l2) then l1.tmod l2 + l2
  else l1.tmod l2

/-- `rb_fix_mul_fix` (object-model contract): exact product, promoted when
it does not fit a fixnum. -/
def rb_fix_mul_fix (op1 op2 : Nat) : RVal :=
  LONG2NUM (FIX2LONG op1 * FIX2LONG op2)

/-- `rb_fix_div_fix` (object-model contract, `rb_fix_divmod_fix` in
`internal.h`): floored quotient with the `FIXNUM_MIN / -1` overflow case
promoted. -/
def rb_fix_div_fix (op1 op2 : Nat) : RVal :=
  if FIX2LONG op1 = fixnumMin ∧ FIX2LONG op2 = -1 then LONG2NUM (-fixnumMin)
  else LONG2NUM (fixFloorDiv (FIX2LONG op1) (FIX2LONG op2))

/-- `rb_fix_mod_fix` (object-model contract): floored remainder; the
`FIXNUM_MIN mod -1` case is zero. -/
def rb_fix_mod_fix (op1 op2 : Nat) : RVal :=
  if FIX2LONG op1 = fixnumMin ∧ FIX2LONG op2 = -1 then LONG2NUM 0
  else LONG2NUM (fixFloorMod (FIX2LONG op1) (FIX2LONG op2))

/-- `fix_num_mult`: delegates to `rb_fix_mul_fix`. -/
def fix_num_mult (op1 op2 : Nat) : RVal := rb_fix_mul_fix op1 op2

/-- `fix_num_div`: a zero divisor yields the recoverable `Qundef`
sentinel, otherwise the exact floored quotient via `rb_fix_div_fix`. -/
def fix_num_div (op1 op2 : Nat) : RVal :=
  if FIX2LONG op2 = 0 then Qundef else rb_fix_div_fix op1 op2

/-- `fix_num_mod`: a zero divisor yields the recoverable `Qundef`
sentinel, otherwise the exact floored remainder via `rb_fix_mod_fix`. -/
def fix_num_mod (op1 op2 : Nat) : RVal :=
  if FIX2LONG op2 = 0 then Qundef else rb_fix_mod_fix op1 op2

/-! ### Speculative fixnum fast paths (`spec_fix_num_*`) -/

/-- `spec_fix_num_plus`: same tag-compensated addition and overflow test
as `fix_num_plus`, but an overflowing pair reports `Qundef` instead of
promoting. -/
def spec_fix_num_plus (op1 op2 : Nat) : RVal :=
  let val : Nat := (op1 + op2 + (w64 - 1)) % w64
  if (((op1 ^^^ op2) ^^^ (w64 - 1)) &&& (op1 ^^^ val)) &&& msb ≠ 0 then
    Qundef
  else
    .val val

/-- `spec_fix_num_minus`: exact difference, tagged when fixable, `Qundef`
when it leaves the fixnum range. -/
def spec_fix_num_minus (op1 op2 : Nat) : RVal :=
  let c := FIX2LONG op1 - FIX2LONG op2
  if !FIXABLE c then Qundef else .val (LONG2FIX c)

/-- `spec_fix_num_mult`: exact double-width product, tagged when fixable,
`Qundef` when it leaves the fixnum range. -/
def spec_fix_num_mult (op1 op2 : Nat) : RVal :=
  let v := FIX2LONG op1 * FIX2LONG op2
  if FIXABLE v then .val (LONG2FIX v) else Qundef

/-- `spec_fix_num_div`: `Qundef` on a zero divisor, exact promotion on the
`FIXNUM_MIN / -1` overflow pair, otherwise the floored quotient computed
by truncate-then-correct and tagged with `LONG2FIX`. -/
def spec_fix_num_div (op1 op2 : Nat) : RVal :=
  let l1 := FIX2LONG op1
  let l2 := FIX2LONG op2
  if l2 = 0 then Qundef
  else if l1 = fixnumMin ∧ l2 = -1 then LONG2NUM (-fixnumMin)
  else .val (LONG2FIX (fixFloorDiv l1 l2))

/-- `spec_fix_num_mod`: `Qundef` on a zero divisor, `0` on the
`FIXNUM_MIN mod -1` pair, otherwise the floored remainder computed by
truncate-then-correct and tagged with `LONG2FIX`. -/
def spec_fix_num_mod (op1 op2 : Nat) : RVal :=
  let l1 := FIX2LONG op1
  let l2 := FIX2LONG op2
  if l2 = 0 then Qundef
  else if l1 = fixnumMin ∧ l2 = -1 then .val (LONG2FIX 0)
  else .val (LONG2FIX (fixFloorMod l1 l2))

/-! ### Fixnum comparison fast paths (`cmpf(fix_num_*)`) -/

/-- `fix_num_eq`: signed comparison of the tagged words. -/
def fix_num_eq (a b : Nat) : Bool := toSigned a == toSigned b

/-- `fix_num_ne`. -/
def fix_num_ne (a b : Nat) : Bool := toSigned a != toSigned b

/-- `fix_num_lt`. -/
def fix_num_lt (a b : Nat) : Bool := decide (toSigned a < toSigned b)

/-- `fix_num_gt`. -/
def fix_num_gt (a b : Nat) : Bool := decide (toSigned b < toSigned a)

/-- `fix_num_le`. -/
def fix_num_le (a b : Nat) : Bool := decide (toSigned a ≤ toSigned b)

/-- `fix_num_ge`. -/
def fix_num_ge (a b : Nat) : Bool := decide (toSigned b ≤ toSigned a)

end RtlMjit

namespace RtlMjit

/-! ### Executor environment

Globals and object-model lookups read by the instruction handlers.  The
theorems quantify over this record, so every proved property holds for
every state of the external collaborators. -/

/-- The `ruby_basic_operators` members used by the embedded handlers. -/
inductive Bop where
  | plus | minus | mult | div | mod
  | eq | neq | lt | gt | le | ge
  | aref
deriving DecidableEq, Repr

/-- The `*_REDEFINED_OP_FLAG` families used by the embedded handlers. -/
inductive RedefFlag where
  | integer | float | string | array | hash
deriving DecidableEq, Repr

/-- External state read by the handlers: redefinition bitmap
(`BASIC_OP_UNREDEFINED_P`), the MJIT globals, and the object-model
contract (`RBASIC_CLASS`, class constants, array/string primitives,
method-table lookups). -/
structure ExecExt where
  basic_op_unredefined_p : Bop → RedefFlag → Bool
  mjit_bop_redefined_p : Bool
  classOf : RVal → Nat
  cFloat : Nat
  cString : Nat
  cArray : Nat
  cHash : Nat
  str_plus : RVal → RVal → RVal
  ary_plus : RVal → RVal → RVal
  str_equal : RVal → RVal → RVal
  eq_cfunc_is_obj_equal : RVal → Bool
  sameObject : RVal → RVal → Bool
  aryLen : RVal → Nat
  aryElem : RVal → Nat → RVal

/-- Outcome of a generic two-operand handler body (`do_arithm`,
`do_cmp`): either the fast path stored a value into `*res` (possibly
rewriting the current instruction to the given speculative opcode via
`vm_change_insn`), or the handler fell through to the full dynamic
dispatch `op2_call`. -/
inductive ArithOut where
  | fast : RVal → Option Nat → ArithOut
  | slow : ArithOut
deriving DecidableEq, Repr

/-- `do_arithm`: the generic arithmetic handler body.  Fast paths for
fixnum pairs (guarded by `FIXNUM_P`/`FIXNUM_2_P` and the integer
redefinition flag), flonum pairs, heap float pairs, string and array
`+`; everything else, and a `Qundef` report from the fixnum `div`/`mod`
fast path, falls through to `op2_call`. -/
def do_arithm (ext : ExecExt) (op1 op2 : RVal) (bop : Bop)
    (fix_num_op : Nat → Nat → RVal)
    (float_num_op double_num_op : RVal → RVal → RVal)
    (op2_fixnum_p op2_flonum_p change_p : Bool)
    (fix_insn_id flo_insn_id : Nat) : ArithOut :=
  if ((op2_fixnum_p && FIXNUM_P op1)
      || (!op2_fixnum_p && !op2_flonum_p && FIXNUM_2_P op1 op2))
     && ext.basic_op_unredefined_p bop .integer then
    let val := fix_num_op (rvWord op1) (rvWord op2)
    if val ≠ Qundef ∨ (bop ≠ .div ∧ bop ≠ .mod) then
      .fast val (if change_p then some fix_insn_id else none)
    else
      .slow
  else if ((op2_flonum_p && FLONUM_P op1)
      || (!op2_fixnum_p && !op2_flonum_p && FLONUM_2_P op1 op2))
     && ext.basic_op_unredefined_p bop .float then
    .fast (float_num_op op1 op2) (if change_p then some flo_insn_id else none)
  else if !op2_fixnum_p && !op2_flonum_p
      && !SPECIAL_CONST_P op1 && !SPECIAL_CONST_P op2 then
    if ext.classOf op1 == ext.cFloat && ext.classOf op2 == ext.cFloat
       && ext.basic_op_unredefined_p bop .float then
      .fast (double_num_op op1 op2) none
    else if bop == .plus && ext.classOf op1 == ext.cString
        && ext.classOf op2 == ext.cString
        && ext.basic_op_unredefined_p bop .string then
      .fast (ext.str_plus op1 op2) none
    else if bop == .plus && ext.classOf op1 == ext.cArray
        && ext.basic_op_unredefined_p bop .array then
      .fast (ext.ary_plus op1 op2) none
    else
      .slow
  else
    .slow

/-- `common_cmp` fused with the store in `do_cmp`: the generic comparison
handler body.  Fast paths for fixnum and flonum pairs (rewriting the
instruction before comparing when `change_p`), heap float pairs, string
equality, and the `rb_obj_equal` shortcut; otherwise `op2_call`. -/
def do_cmp (ext : ExecExt) (op1 op2 : RVal) (bop : Bop)
    (fix_num_cmp : Nat → Nat → Bool)
    (float_num_cmp double_num_cmp : RVal → RVal → Bool)
    (op2_fixnum_p op2_flonum_p change_p : Bool)
    (fix_insn_id flo_insn_id : Nat) : ArithOut :=
  if ((op2_fixnum_p && FIXNUM_P op1)
      || (!op2_fixnum_p && !op2_flonum_p && FIXNUM_2_P op1 op2))
     && ext.basic_op_unredefined_p bop .integer then
    .fast (if fix_num_cmp (rvWord op1) (rvWord op2) then Qtrue else Qfalse)
      (if change_p then some fix_insn_id else none)
  else if ((op2_flonum_p && FLONUM_P op1)
      || (!op2_fixnum_p && !op2_flonum_p && FLONUM_2_P op1 op2))
     && ext.basic_op_unredefined_p bop .float then
    .fast (if float_num_cmp op1 op2 then Qtrue else Qfalse)
      (if change_p then some flo_insn_id else none)
  else if !op2_fixnum_p && !op2_flonum_p
      && !SPECIAL_CONST_P op1 && !SPECIAL_CONST_P op2 then
    if ext.classOf op1 == ext.cFloat && ext.classOf op2 == ext.cFloat
       && ext.basic_op_unredefined_p bop .float then
      .fast (if double_num_cmp op1 op2 then Qtrue else Qfalse) none
    else if bop == .eq && ext.classOf op1 == ext.cString
        && ext.classOf op2 == ext.cString
        && ext.basic_op_unredefined_p bop .string then
      .fast (ext.str_equal op1 op2) none
    else
      .slow
  else if bop == .eq then
    if ext.eq_cfunc_is_obj_equal op1 then
      .fast (if ext.sameObject op1 op2 then Qtrue else Qfalse) none
    else
      .slow
  else
    .slow

/-! ### Speculative handlers

A speculative handler either stores its result and reports success
(`FALSE` in C), or stores nothing, names the designated non-speculative
opcode through its `new_insn` out-parameter, and reports failure
(`TRUE`), upon which the dispatch loop rewrites the current position and
re-executes it. -/

/-- All writes a speculative handler performs: the value stored into the
result location (if any), the opcode reported through the `new_insn`
out-parameter (if any), and the returned flag (`true` means the
speculation failed and the insn must be changed and re-executed). -/
structure SpecOut where
  written : Option RVal
  newInsn : Option Nat
  failed : Bool
deriving DecidableEq, Repr

/-- `do_spec_fix_arithm`: re-validate the cheap precondition (integer
redefinition flag and fixnum tags), run the speculative fast path, and
either store its result or report the designated unchanging opcode
`uinsn`. -/
def do_spec_fix_arithm (ext : ExecExt) (op1 op2 : RVal) (bop : Bop)
    (fix_num_op : Nat → Nat → RVal) (op2_fixnum_p : Bool)
    (uinsn : Nat) : SpecOut :=
  if (!ext.mjit_bop_redefined_p || ext.basic_op_unredefined_p bop .integer)
     && ((op2_fixnum_p && FIXNUM_P op1)
         || (!op2_fixnum_p && FIXNUM_2_P op1 op2)) then
    let val := fix_num_op (rvWord op1) (rvWord op2)
    if val ≠ Qundef then ⟨some val, none, false⟩
    else ⟨none, some uinsn, true⟩
  else ⟨none, some uinsn, true⟩

/-- `common_spec_fix_cmp`: speculative fixnum comparison kernel, `Qundef`
when the guess about the operands is wrong. -/
def common_spec_fix_cmp (ext : ExecExt) (op1 op2 : RVal) (bop : Bop)
    (fix_num_cmp : Nat → Nat → Bool) (op2_fixnum_p : Bool) : RVal :=
  if (!ext.mjit_bop_redefined_p || ext.basic_op_unredefined_p bop .integer)
     && ((op2_fixnum_p && FIXNUM_P op1)
         || (!op2_fixnum_p && FIXNUM_2_P op1 op2)) then
    if fix_num_cmp (rvWord op1) (rvWord op2) then Qtrue else Qfalse
  else Qundef

/-- `do_spec_fix_cmp`: store the speculative comparison result, or on a
wrong guess report the designated unchanging opcode `uinsn`. -/
def do_spec_fix_cmp (ext : ExecExt) (op1 op2 : RVal) (bop : Bop)
    (fix_num_cmp : Nat → Nat → Bool) (op2_fixnum_p : Bool)
    (uinsn : Nat) : SpecOut :=
  let val := common_spec_fix_cmp ext op1 op2 bop fix_num_cmp op2_fixnum_p
  if val = Qundef then ⟨none, some uinsn, true⟩
  else ⟨some val, none, false⟩

/-- Numeric id standing for the `uind` opcode (`BIN(uind)`), the
designated non-speculative replacement of `aind`. -/
def uindInsn : Nat := 101

/-- `aind_f`: the speculative array-indexing handler.  The precondition
is an unredefined array `[]` on a genuine array receiver with a fixnum
index; a failed precondition or an out-of-range index stores nothing and
reports `uind`. -/
def aind_f (ext : ExecExt) (op1 op2 : RVal) : SpecOut :=
  if !SPECIAL_CONST_P op1 && (ext.classOf op1 == ext.cArray)
     && (!ext.mjit_bop_redefined_p || ext.basic_op_unredefined_p .aref .array)
     && FIXNUM_P op2 then
    let len := ext.aryLen op1
    let offset := FIX2ULONG (rvWord op2)
    if offset < len then ⟨some (ext.aryElem op1 offset), none, false⟩
    else ⟨none, some uindInsn, true⟩
  else ⟨none, some uindInsn, true⟩

/-! ### Conditional branches (`bf_f`, `bt_f`, `bnil_f`) -/

/-- Observable behaviour of a conditional-branch handler: whether the
branch is taken, and whether `RUBY_VM_CHECK_INTS` ran. -/
structure BranchOut where
  taken : Bool
  checkedInts : Bool
deriving DecidableEq, Repr

/-- `bf_f` (branch on false): takes the branch, and only then polls for
pending interrupts. -/
def bf_f (op : Nat) : BranchOut :=
  if !RTEST op then ⟨true, true⟩ else ⟨false, false⟩

/-- `bt_f` (branch on true): takes the branch, and only then polls for
pending interrupts. -/
def bt_f (op : Nat) : BranchOut :=
  if RTEST op then ⟨true, true⟩ else ⟨false, false⟩

/-- `bnil_f` (branch on nil): takes the branch, and only then polls for
pending interrupts. -/
def bnil_f (op : Nat) : BranchOut :=
  if NIL_P op then ⟨true, true⟩ else ⟨false, false⟩

end RtlMjit

namespace RtlMjit

/-! ### Frames and the default stack-pointer invariant
(`set_default_sp`, `check_sp_default`, `call_method`) -/

/-- One activation record, with the fields the stack-pointer discipline
touches: `sp`, the fields `RTL_GET_BP` chooses between (`bp` and `ep`),
and the frame's declared temporary count `iseq->body->temp_vars_num`. -/
structure Frame where
  sp : Int
  bp : Int
  ep : Int
  temp_vars_num : Nat
deriving DecidableEq, Repr

/-- External state of `call_method`: the resolved call entry
(`cc->call`, returning the value — `Qundef` when a new interpreted frame
was pushed — and the stack pointer it leaves behind), the `in_mjit_p`
global, the `mjit_ep_neq_bp_p` global, and `mjit_vm_exec`. -/
structure CallExt where
  mjit_ep_neq_bp_p : Bool
  in_mjit_p : Bool
  cc_call : Frame → RVal × Int
  mjit_vm_exec : Frame → RVal × Int

/-- `RTL_GET_BP`: the frame base, `bp` under frame-pointer speculation
failure, `ep` otherwise. -/
def RTL_GET_BP (ext : CallExt) (cfp : Frame) : Int :=
  if ext.mjit_ep_neq_bp_p then cfp.bp else cfp.ep

/-- `set_default_sp_0`: place `sp` right after the `temp_vars_num`
temporaries of the frame whose base is `bp`. -/
def set_default_sp_0 (cfp : Frame) (bp : Int) (temp_vars_num : Nat) : Frame :=
  ⟨bp + 1 + temp_vars_num, cfp.bp, cfp.ep, cfp.temp_vars_num⟩

/-- `set_default_sp`: place `sp` at the frame's default position. -/
def set_default_sp (cfp : Frame) (bp : Int) : Frame :=
  set_default_sp_0 cfp bp cfp.temp_vars_num

/-- `check_sp_default`: the assertion that `sp` sits exactly past the
declared temporary area (`sp == RTL_GET_BP(cfp) + 1 + temp_vars_num`). -/
def check_sp_default (ext : CallExt) (cfp : Frame) : Prop :=
  cfp.sp = RTL_GET_BP ext cfp + 1 + (cfp.temp_vars_num : Int)

/-- `call_method`: perform the resolved call and restore the default
stack pointer when the call finishes a value (directly, or through
`mjit_vm_exec` when running under the JIT).  A `Qundef` result outside
the JIT means a fresh interpreted frame now runs; the restoration then
happens at that frame's return. -/
def call_method (ext : CallExt) (cfp : Frame) : RVal × Frame :=
  let r := ext.cc_call cfp
  let cfp1 : Frame := ⟨r.2, cfp.bp, cfp.ep, cfp.temp_vars_num⟩
  if r.1 ≠ Qundef then
    (r.1, set_default_sp cfp1 (RTL_GET_BP ext cfp1))
  else if ext.in_mjit_p then
    let r2 := ext.mjit_vm_exec cfp1
    let cfp2 : Frame := ⟨r2.2, cfp1.bp, cfp1.ep, cfp1.temp_vars_num⟩
    (r2.1, set_default_sp cfp2 (RTL_GET_BP ext cfp2))
  else
    (r.1, cfp1)

end RtlMjit

namespace RtlMjit

/-! ### Abstract stack analyzer (`rtl_gen.c`)

The analyzer's emulated VM stack holds descriptor slots
(`enum slot_type` with the `u` payload folded into the constructor) each
remembering the producing stack-insn position.  `update_saved_stack_slots`
unifies the state saved at a label with the state arriving along an edge,
forcing disagreeing slots to `temp` and marking their producers in the
`use_only_temp_result_p` map (embedded as a finite set of marked
positions). -/

/-- Slot descriptor: `enum slot_type {ANY, SELF, VAL, STR, LOC, TEMP}`
with the `u` payload of `struct stack_slot` folded into the
constructor. -/
inductive SlotMode where
  | any
  | slf
  | val : Nat → SlotMode
  | str : Nat → SlotMode
  | loc : Int → SlotMode
  | temp
deriving DecidableEq, Repr

/-- One emulated-VM-stack slot: descriptor plus the position of the stack
insn that produced it. -/
structure StackSlot where
  mode : SlotMode
  source_insn_pos : Nat
deriving DecidableEq, Repr

/-- `stack_slot_eq`: descriptors (tag and payload) agree; the producing
position is not compared, and two `temp` slots at the same depth are
always equal. -/
def stack_slot_eq (s1 s2 : StackSlot) : Bool := s1.mode == s2.mode

/-- Result of `update_saved_stack_slots`: the updated saved slots, the
current emulated stack after `change_stack_slot` rewrites, the updated
`use_only_temp_result_p` marks, and the `changed_p` flag.  The extra
`stale` flag is instrumentation only: it records that the
`TEMP`-versus-non-`TEMP` branch re-marked a producer that was already
marked (the termination measure does not grow on such a step). -/
structure UpdResult where
  saved : List StackSlot
  stack : List StackSlot
  marks : Finset Nat
  changed : Bool
  stale : Bool
deriving DecidableEq

/-- One iteration of the `update_saved_stack_slots` loop body on the pair
of slots at one stack depth: the unified saved slot, the current stack
slot after `change_stack_slot`, the marks, the `changed_p` contribution,
and the staleness instrumentation bit. -/
def updateSlot (sv st : StackSlot) (marks : Finset Nat) :
    StackSlot × StackSlot × Finset Nat × Bool × Bool :=
  if st.mode = .any then (sv, st, marks, false, false)
  else if sv.mode = .any then (st, st, marks, true, false)
  else if ¬ stack_slot_eq sv st then
    if sv.mode ≠ .temp then
      (⟨.temp, sv.source_insn_pos⟩, ⟨.temp, sv.source_insn_pos⟩,
        insert sv.source_insn_pos marks, true, false)
    else if st.mode ≠ .temp then
      (⟨.temp, sv.source_insn_pos⟩, ⟨.temp, sv.source_insn_pos⟩,
        insert st.source_insn_pos marks, true, decide (st.source_insn_pos ∈ marks))
    else
      (⟨.temp, sv.source_insn_pos⟩, ⟨.temp, sv.source_insn_pos⟩, marks, false, false)
  else (sv, st, marks, false, false)

/-- `update_saved_stack_slots`: walk the current emulated stack against
the slots saved for the label, unifying slot by slot. -/
def update_saved_stack_slots :
    List StackSlot → List StackSlot → Finset Nat → UpdResult
  | saved, [], marks => ⟨saved, [], marks, false, false⟩
  | [], st :: sts, marks => ⟨[], st :: sts, marks, false, false⟩
  | sv :: svs, st :: sts, marks =>
    ⟨(updateSlot sv st marks).1
        :: (update_saved_stack_slots svs sts (updateSlot sv st marks).2.2.1).saved,
      (updateSlot sv st marks).2.1
        :: (update_saved_stack_slots svs sts (updateSlot sv st marks).2.2.1).stack,
      (update_saved_stack_slots svs sts (updateSlot sv st marks).2.2.1).marks,
      (updateSlot sv st marks).2.2.2.1
        || (update_saved_stack_slots svs sts (updateSlot sv st marks).2.2.1).changed,
      (updateSlot sv st marks).2.2.2.2
        || (update_saved_stack_slots svs sts (updateSlot sv st marks).2.2.1).stale⟩

/-- Descriptor merge performed at one depth by `update_saved_stack_slots`
on the saved slot (pure view of `updateSlot`). -/
def mergeSaved (sv st : StackSlot) : StackSlot :=
  if st.mode = .any then sv
  else if sv.mode = .any then st
  else if ¬ stack_slot_eq sv st then ⟨.temp, sv.source_insn_pos⟩
  else sv

/-- Rank of a descriptor in the analysis lattice: `any` below every
concrete descriptor below `temp`.  `update_saved_stack_slots` only ever
moves a saved slot upward. -/
def slotRank : SlotMode → Nat
  | .any => 0
  | .temp => 2
  | _ => 1

/-- Rank sum of a saved stack state. -/
def stateRank (l : List StackSlot) : Nat := (l.map (fun s => slotRank s.mode)).sum

/-! #### The fixed-point sweep (`find_stack_values_on_labels`)

Persistent analysis state: per label either no saved state yet
(`pos_label_type == NO_LABEL`) or the saved slots, together with the
global mark map.  A sweep processes a sequence of join events — a label
reached with an incoming emulated stack — through `process_label`: a
first visit establishes the saved state (and reports a change exactly as
`process_label` raises `stack_on_label_change_p`), a later visit unifies
through `update_saved_stack_slots`. -/

/-- Persistent state of the analysis between sweeps. -/
structure AState where
  savedStates : List (Option (List StackSlot))
  marks : Finset Nat
deriving DecidableEq

/-- A join event of one sweep: the label index and the incoming emulated
stack at that label. -/
structure JoinEvent where
  label : Nat
  incoming : List StackSlot
deriving DecidableEq

/-- `process_label` on one join event: establish or unify the saved
state.  Returns the new state, the contribution to
`stack_on_label_change_p`, and the staleness instrumentation bit. -/
def processLabel (s : AState) (e : JoinEvent) : AState × Bool × Bool :=
  match s.savedStates.get? e.label with
  | none => (s, false, false)
  | some none =>
    (⟨s.savedStates.set e.label (some e.incoming), s.marks⟩, true, false)
  | some (some sv) =>
    let r := update_saved_stack_slots sv e.incoming s.marks
    (⟨s.savedStates.set e.label (some r.saved), r.marks⟩, r.changed, r.stale)

/-- One full sweep of the do-while loop: process the sweep's join events
in order, OR-ing the change and staleness flags. -/
def applySweep (s : AState) : List JoinEvent → AState × Bool × Bool
  | [] => (s, false, false)
  | e :: es =>
    let h := processLabel s e
    let r := applySweep h.1 es
    (r.1, h.2.1 || r.2.1, h.2.2 || r.2.2)

/-- Flags reported by a sequence of sweeps: for each sweep, its
`stack_on_label_change_p` and staleness bits. -/
def sweepFlags : AState → List (List JoinEvent) → List (Bool × Bool)
  | _, [] => []
  | s, sw :: rest =>
    let r := applySweep s sw
    (r.2.1, r.2.2) :: sweepFlags r.1 rest

/-- Weight of one label entry in the termination measure: one unit for an
established state plus the lattice rank of its slots. -/
def labelWeight : Option (List StackSlot) → Nat
  | none => 0
  | some l => 1 + stateRank l

/-- Termination measure of the analysis state: one unit per established
label state, the lattice rank of every saved slot, and one unit per
marked position. -/
def stateMeasure (s : AState) : Nat :=
  (s.savedStates.map labelWeight).sum + s.marks.card

/-- All slot producer positions of a list lie below the program size. -/
def slotsBounded (size : Nat) (l : List StackSlot) : Prop :=
  ∀ sl ∈ l, sl.source_insn_pos < size

/-- State bounds: `numLabels` label entries, saved states of depth at
most `maxDepth`, producers below `size`, marks within the program. -/
def stateBounded (size maxDepth : Nat) (s : AState) : Prop :=
  (∀ o ∈ s.savedStates, ∀ l, o = some l → l.length ≤ maxDepth ∧ slotsBounded size l)
    ∧ s.marks ⊆ Finset.range size

/-- Event bounds for a sweep script. -/
def sweepBounded (size maxDepth : Nat) (sw : List JoinEvent) : Prop :=
  ∀ e ∈ sw, e.incoming.length ≤ maxDepth ∧ slotsBounded size e.incoming

/-- The persistent analysis state that `find_stack_values_on_labels`
reaches after two sweeps on the 22-slot stack-insn sequence

`0: putnil; 1: branchif →15; 3: jump →11; 5: leave; 6: pop;
7: putobject 42; 9: jump →19; 11: putobject 42; 13: jump →19;
15: putobject 7; 17: jump →21; 19: jump →21; 21: leave`

with one catch-table entry (`CATCH_TYPE_RESCUE`, `sp = 0`,
`cont = 6`) and no trace events.  Entry 0 stands for label 19: its saved
slot is `VAL(42)` credited to position 7, because on the first sweep the
catch continuation at 6 — enqueued once, before the do-while
(`rtl_gen.c:1061`) — pops before labels 11 and 15 and walks the
otherwise unreachable positions 6..9 first, so label 19 is first visited
with the slot produced at 7.  Entry 1 stands for label 21: first saved
as `VAL(7)` from position 15, then forced to `TEMP` (marking 15) when
the walk restored at 19 delivered `VAL(42)`; position 7 was marked on
the second sweep by the saved-`TEMP`-versus-incoming-`VAL` branch. -/
def lassoState : AState :=
  ⟨[some [⟨.val 42, 7⟩], some [⟨.temp, 15⟩]], {7, 15}⟩

/-- The join events of every sweep of that sequence from the third sweep
on.  Label 19 receives `VAL(42)` from the live producer at position 11 —
value-equal to its saved slot (`stack_slot_eq` ignores the producer
position), so nothing changes and the stale credit to position 7
survives.  Label 21 receives the `TEMP` pushed by the marked position 15
and then, from the walk restored at label 19, the `VAL(42)` still
credited to position 7.  Position 7 lies in the catch-only region, which
is never re-enqueued after the first sweep, so its slot is never rebuilt
as `TEMP` and keeps arriving concrete. -/
def lassoSweep : List JoinEvent :=
  [⟨0, [⟨.val 42, 11⟩]⟩, ⟨1, [⟨.temp, 15⟩]⟩, ⟨1, [⟨.val 42, 7⟩]⟩]

end RtlMjit

namespace RtlMjit

/-! ### The emulated VM stack of the generator (`push_stack_slot`,
`push_temp_result`, `new_top_stack_temp_var`, and the slot-rewriting
stack insns)

The `!NDEBUG` build of `rtl_gen.c` keeps the debug union member `u.temp`
on every `TEMP` slot; the embedding carries that field (`temp`) on every
slot (meaningful only when the descriptor is `temp`, like the C union
member). -/

/-- One emulated-VM-stack slot with the debug temporary index. -/
structure TSlot where
  mode : SlotMode
  source_insn_pos : Nat
  temp : Int
deriving DecidableEq, Repr

/-- The generator state the stack operations touch: the emulated VM stack
and `max_stack_depth`. -/
structure TState where
  stack : List TSlot
  max_stack_depth : Nat
deriving DecidableEq, Repr

/-- `push_stack_slot`: append the slot and raise `max_stack_depth` to the
new length when it grew past it. -/
def push_stack_slot (slot : TSlot) (s : TState) : TState :=
  let len := s.stack.length + 1
  ⟨s.stack ++ [slot],
    if s.max_stack_depth < len then len else s.max_stack_depth⟩

/-- `push_val`: push a descriptor produced at `pos`; a `temp` descriptor
receives the debug index `-(len)-1` of the slot it will occupy. -/
def push_val (mode : SlotMode) (pos : Nat) (s : TState) : TState :=
  push_stack_slot
    ⟨mode, pos,
      if mode = .temp then -((s.stack.length : Int) + 1) else 0⟩ s

/-- `push_temp_result`: push a slot describing the temporary register
`res` produced by the stack insn at `pos`
(`assert(res == -(vindex_t)len - 1)` is the subject of the invariant
theorem). -/
def push_temp_result (pos : Nat) (res : Int) (s : TState) : TState :=
  push_stack_slot ⟨.temp, pos, res⟩ s

/-- `new_top_stack_temp_var`: compute the next temporary index
`-(len)-1`, push its slot, and return the index. -/
def new_top_stack_temp_var (pos : Nat) (s : TState) : Int × TState :=
  let res : Int := -((s.stack.length : Int) + 1)
  (res, push_temp_result pos res s)

/-- `pop_stack_slot` (without the `loc_stack_count` bookkeeping, which
tracks local-variable multiplicities and never touches descriptors or
temp indices): drop the top slot. -/
def pop_stack_slot (s : TState) : TState :=
  ⟨s.stack.dropLast, s.max_stack_depth⟩

/-- `change_stack_slot`: overwrite the slot at depth `n`. -/
def change_stack_slot (n : Nat) (slot : TSlot) (s : TState) : TState :=
  ⟨s.stack.set n slot, s.max_stack_depth⟩

/-- The `dup` case of `update_stack_by_insn`: duplicate the top slot,
materializing the copy as a fresh temporary when the original is a
temporary (a temporary index may not occur twice) or when the position is
forced to a temporary result. -/
def dup_insn (temp_only_p : Bool) (pos : Nat) (s : TState) : TState :=
  match s.stack.getLast? with
  | none => s
  | some slot =>
    if slot.mode = .temp || temp_only_p then push_val .temp pos s
    else push_stack_slot slot s

/-- The `topn` case of `update_stack_by_insn`: copy the slot at depth
`len - n - 1`, materializing like `dup`. -/
def topn_insn (temp_only_p : Bool) (n : Nat) (pos : Nat) (s : TState) : TState :=
  match s.stack.get? (s.stack.length - n - 1) with
  | none => s
  | some slot =>
    if slot.mode = .temp || temp_only_p then push_val .temp pos s
    else push_stack_slot slot s

/-- The `setn` case of `update_stack_by_insn`: write the top slot into
depth `len - n - 1`, re-aiming the debug temporary index at its new
position. -/
def setn_insn (n : Nat) (s : TState) : TState :=
  match s.stack.getLast? with
  | none => s
  | some slot =>
    let len := s.stack.length
    let slot2 : TSlot :=
      if slot.mode = .temp then ⟨slot.mode, slot.source_insn_pos, (n : Int) - (len : Int)⟩
      else slot
    change_stack_slot (len - n - 1) slot2 s

/-- The `swap` case of `update_stack_by_insn`: exchange the two top
slots, re-aiming the debug temporary indices at their new positions. -/
def swap_insn (s : TState) : TState :=
  match s.stack.get? (s.stack.length - 1), s.stack.get? (s.stack.length - 2) with
  | some slot, some slot2 =>
    let op : Int := (s.stack.length : Int)
    let slotA : TSlot :=
      if slot.mode = .temp then ⟨slot.mode, slot.source_insn_pos, -op + 1⟩ else slot
    let slotB : TSlot :=
      if slot2.mode = .temp then ⟨slot2.mode, slot2.source_insn_pos, -op⟩ else slot2
    change_stack_slot (s.stack.length - 1) slotB
      (change_stack_slot (s.stack.length - 2) slotA s)
  | _, _ => s

/-- The `reverse` case of `update_stack_by_insn`: force the top `n` slots
to temporaries with the debug index of the depth each occupies. -/
def reverse_insn (pos : Nat) (s : TState) : Nat → TState
  | 0 => s
  | n + 1 =>
    let len := s.stack.length
    reverse_insn pos
      (change_stack_slot (len - n - 1)
        ⟨.temp, pos, (n : Int) - (len : Int)⟩ s) n

/-- Well-formedness invariant of the emulated VM stack: every `temp` slot
at zero-based depth `i` carries the temporary index `-(i+1)`, and the
stack never grew past the recorded `max_stack_depth`. -/
def TWF (s : TState) : Prop :=
  (∀ i (h : i < s.stack.length),
      (s.stack.get ⟨i, h⟩).mode = .temp →
        (s.stack.get ⟨i, h⟩).temp = -((i : Int) + 1))
    ∧ s.stack.length ≤ s.max_stack_depth

end RtlMjit

namespace RtlMjit

/-! ### Allocation-failure behaviour of `rtl_gen`

`rtl_gen` sets up a `setjmp` target; every variable-length-array
allocation failure in either pass long-jumps there through
`varr_malloc_failure`, and the remaining table allocations are
NULL-checked.  The embedding drives the function by an oracle saying
which allocation sites succeed, and records which iseq-body fields the
run installed. -/

/-- Allocation oracle for one `rtl_gen` run: `varr_ok` covers every
variable-length-array growth in the two passes (a failure long-jumps via
`varr_malloc_failure`); the other fields cover the NULL-checked table
allocations, in program order.  `catch_present` says whether the iseq has
a catch table to translate. -/
structure GenOracle where
  cd_ok : Bool
  varr_ok : Bool
  rtl_alloc_ok : Bool
  info_entries_ok : Bool
  info_positions_ok : Bool
  catch_present : Bool
  catch_ok : Bool
deriving DecidableEq, Repr

/-- What one `rtl_gen` run left installed in the iseq body, and its
return value. -/
structure GenResult where
  ret : Bool
  cd_installed : Bool
  rtl_size_set : Bool
  rtl_installed : Bool
  info_installed : Bool
  catch_installed : Bool
deriving DecidableEq, Repr

/-- `create_cd_data`: allocate the call-data table; on NULL report
failure before installing anything. -/
def create_cd_data (o : GenOracle) : Bool := o.cd_ok

/-- `create_rtl_insn_info_table`: two NULL-checked allocations; the
second failure frees the first, so the table is installed only when both
succeed. -/
def create_rtl_insn_info_table (o : GenOracle) : Bool × Bool :=
  if ¬ o.info_entries_ok then (false, false)
  else if ¬ o.info_positions_ok then (false, false)
  else (true, true)

/-- `create_rtl_catch_table`: nothing to do without a catch table; one
NULL-checked allocation otherwise. -/
def create_rtl_catch_table (o : GenOracle) : Bool × Bool :=
  if ¬ o.catch_present then (true, false)
  else if ¬ o.catch_ok then (false, false)
  else (true, true)

/-- `rtl_gen`: the entry point, threading the allocation oracle through
`create_cd_data`, the two passes (`find_stack_values_on_labels`,
`translate` — any growth failure there long-jumps to the `setjmp` at
entry), the register-stream installation, `create_rtl_insn_info_table`
and `create_rtl_catch_table`. -/
def rtl_gen (o : GenOracle) : GenResult :=
  if ¬ create_cd_data o then
    ⟨false, false, false, false, false, false⟩
  else if ¬ o.varr_ok then
    ⟨false, true, false, false, false, false⟩
  else if ¬ o.rtl_alloc_ok then
    ⟨false, true, true, false, false, false⟩
  else
    let info := create_rtl_insn_info_table o
    if ¬ info.1 then
      ⟨false, true, true, true, info.2, false⟩
    else
      let ctch := create_rtl_catch_table o
      ⟨ctch.1, true, true, true, info.2, ctch.2⟩

/-! ### Concrete instantiations used by the closed witness theorems -/

/-- A concrete executor environment: nothing redefined, not under MJIT,
and arbitrary fixed answers for the object-model lookups. -/
def sampleExt : ExecExt :=
  ⟨fun _ _ => true, false, fun _ => 0, 1, 2, 3, 4,
    fun _ _ => (RVal.val QnilW), fun _ _ => (RVal.val QnilW), fun _ _ => (RVal.val QnilW),
    fun _ => false, fun _ _ => false, fun _ => 0, fun _ _ => (RVal.val QnilW)⟩

/-- A concrete call environment whose resolved call returns `Qtrue` and
leaves the stack pointer at 99. -/
def sampleCallExt : CallExt :=
  ⟨false, false, fun _ => (Qtrue, 99), fun _ => (Qtrue, 98)⟩

end RtlMjit

namespace RtlMjit

/-! ### Opcode tables for the speculative/generic pairing (claim C1)

The `op2_fun`/`spec_op2_fun` definition blocks of `rtl_exec.c` pair each
generic fixnum arithmetic/comparison insn with its speculative form;
these tables record, per opcode, the operator and the fast-path
functions each side plugs into `do_arithm`/`do_spec_fix_arithm`
(respectively `do_cmp`/`do_spec_fix_cmp`). -/

/-- The five fixnum arithmetic opcodes that own a speculative form
(`plus`, `minus`, `mult`, `div`, `mod`). -/
inductive FixArithOp where
  | plus | minus | mult | div | mod
deriving DecidableEq, Repr

/-- Operator of a fixnum arithmetic opcode (`BOP_PLUS`, ...). -/
def faBop : FixArithOp → Bop
  | .plus => .plus
  | .minus => .minus
  | .mult => .mult
  | .div => .div
  | .mod => .mod

/-- Generic fast-path function of a fixnum arithmetic opcode
(`fix_num_plus`, ... as plugged in by `arithm_call`). -/
def faGeneric : FixArithOp → Nat → Nat → RVal
  | .plus => fix_num_plus
  | .minus => fix_num_minus
  | .mult => fix_num_mult
  | .div => fix_num_div
  | .mod => fix_num_mod

/-- Speculative fast-path function of a fixnum arithmetic opcode
(`spec_fix_num_plus`, ... as plugged in by `spec_fix_arithm_call`). -/
def faSpec : FixArithOp → Nat → Nat → RVal
  | .plus => spec_fix_num_plus
  | .minus => spec_fix_num_minus
  | .mult => spec_fix_num_mult
  | .div => spec_fix_num_div
  | .mod => spec_fix_num_mod

/-- The six fixnum comparison opcodes that own a speculative form. -/
inductive FixCmpOp where
  | ceq | cne | clt | cgt | cle | cge
deriving DecidableEq, Repr

/-- Operator of a fixnum comparison opcode. -/
def fcBop : FixCmpOp → Bop
  | .ceq => .eq
  | .cne => .neq
  | .clt => .lt
  | .cgt => .gt
  | .cle => .le
  | .cge => .ge

/-- Fast-path comparison of a fixnum comparison opcode — `cmp_call` and
`spec_fix_cmp_call` plug in the same `fix_num_*` function on both the
generic and the speculative side. -/
def fcCmp : FixCmpOp → Nat → Nat → Bool
  | .ceq => fix_num_eq
  | .cne => fix_num_ne
  | .clt => fix_num_lt
  | .cgt => fix_num_gt
  | .cle => fix_num_le
  | .cge => fix_num_ge

end RtlMjit

namespace RtlMjit

/-! ## Lemmas

Shared facts about the tagging scheme, the sign-bit overflow test, and
truncated division, used by several claim theorems below. -/

theorem LONG2FIX_int (l : Int) :
    (LONG2FIX l : Int) = (2 * l + 1) % (18446744073709551616 : Int) := by
  unfold LONG2FIX w64
  rw [Int.toNat_of_nonneg (Int.emod_nonneg _ (by norm_num))]
  norm_num

theorem LONG2FIX_lt (l : Int) : LONG2FIX l < 2 ^ 64 := by
  have h := LONG2FIX_int l
  omega

theorem LONG2FIX_odd (l : Int) : LONG2FIX l % 2 = 1 := by
  have h := LONG2FIX_int l
  omega

theorem LONG2FIX_fixnum_p (l : Int) : wordFixnumP (LONG2FIX l) = true := by
  have h := LONG2FIX_odd l
  unfold wordFixnumP
  simp [h]

theorem LONG2FIX_ne_qundef (l : Int) : LONG2FIX l ≠ QundefW := by
  have h := LONG2FIX_odd l
  unfold QundefW
  omega

theorem LONG2FIX_spec {l : Int} (h1 : fixnumMin ≤ l) (h2 : l ≤ fixnumMax) :
    (LONG2FIX l : Int) = 2 * l + 1 + (if l < 0 then (18446744073709551616 : Int) else 0) := by
  have h := LONG2FIX_int l
  unfold fixnumMin at h1
  unfold fixnumMax at h2
  split <;> omega

theorem toSigned_eq (v : Nat) :
    toSigned v = if (v : Int) < 9223372036854775808 then (v : Int)
      else (v : Int) - 18446744073709551616 := by
  unfold toSigned
  split <;> split <;> omega

theorem FIX2LONG_eq (v : Nat) : FIX2LONG v = (toSigned v) / 2 := by
  unfold FIX2LONG
  exact Int.fdiv_eq_ediv _ (by norm_num)

theorem FIX2LONG_LONG2FIX {l : Int} (h1 : fixnumMin ≤ l) (h2 : l ≤ fixnumMax) :
    FIX2LONG (LONG2FIX l) = l := by
  have hs := LONG2FIX_spec h1 h2
  have ht := toSigned_eq (LONG2FIX l)
  rw [FIX2LONG_eq, ht]
  unfold fixnumMin at h1
  unfold fixnumMax at h2
  split <;> omega

theorem testBit63_iff {n : Nat} (h : n < 2 ^ 64) :
    n.testBit 63 = true ↔ 2 ^ 63 ≤ n := by
  rw [Nat.testBit_to_div_mod]
  simp only [decide_eq_true_eq]
  omega

theorem land_msb_of_testBit_false {n : Nat} (h : n.testBit 63 = false) :
    n &&& 2 ^ 63 = 0 := by
  apply Nat.eq_of_testBit_eq
  intro i
  simp only [Nat.testBit_and, Nat.zero_testBit, Nat.testBit_two_pow]
  by_cases hi : (63 : Nat) = i
  · subst hi; simp [h]
  · simp [hi]

theorem land_msb_of_testBit_true {n : Nat} (h : n.testBit 63 = true) :
    n &&& 2 ^ 63 = 2 ^ 63 := by
  apply Nat.eq_of_testBit_eq
  intro i
  simp only [Nat.testBit_and, Nat.testBit_two_pow]
  by_cases hi : (63 : Nat) = i
  · subst hi; simp [h]
  · simp [hi]

theorem land_msb_ne_zero (n : Nat) :
    (n &&& 2 ^ 63 ≠ 0) ↔ n.testBit 63 = true := by
  constructor
  · intro h
    by_cases hb : n.testBit 63 = true
    · exact hb
    · exact absurd (land_msb_of_testBit_false (by simpa using hb)) h
  · intro h
    rw [land_msb_of_testBit_true h]
    positivity

theorem lor_msb_of_lt {y : Nat} (h : y < 2 ^ 63) : y ||| 2 ^ 63 = y + 2 ^ 63 := by
  have h1 := Nat.mul_add_lt_is_or h 1
  rw [Nat.mul_one] at h1
  rw [Nat.lor_comm]
  omega

theorem overflow_cond_iff {x y z : Nat} (hx : x < 2 ^ 64) (hy : y < 2 ^ 64)
    (hz : z < 2 ^ 64) :
    ((((x ^^^ y) ^^^ (2 ^ 64 - 1)) &&& (x ^^^ z)) &&& 2 ^ 63 ≠ 0)
      ↔ (x.testBit 63 = y.testBit 63 ∧ x.testBit 63 ≠ z.testBit 63) := by
  rw [land_msb_ne_zero]
  simp only [Nat.testBit_and, Nat.testBit_xor, Nat.testBit_two_pow_sub_one]
  revert hx hy hz
  cases hbx : x.testBit 63 <;> cases hby : y.testBit 63 <;> cases hbz : z.testBit 63
    <;> intro hx hy hz <;> simp

end RtlMjit

namespace RtlMjit

theorem shiftRight_one (n : Nat) : n >>> 1 = n / 2 := by
  simp [Nat.shiftRight_succ, Nat.shiftRight_zero]

theorem FIXABLE_iff (l : Int) :
    FIXABLE l = true ↔ (-(4611686018427387904 : Int) ≤ l ∧ l ≤ 4611686018427387903) := by
  unfold FIXABLE fixnumMin fixnumMax
  norm_num

theorem plus_bits {a b : Int} (ha1 : fixnumMin ≤ a) (ha2 : a ≤ fixnumMax)
    (hb1 : fixnumMin ≤ b) (hb2 : b ≤ fixnumMax) :
    (((((LONG2FIX a ^^^ LONG2FIX b) ^^^ (2 ^ 64 - 1))
        &&& (LONG2FIX a ^^^ ((LONG2FIX a + LONG2FIX b + (2 ^ 64 - 1)) % 2 ^ 64)))
        &&& 2 ^ 63 ≠ 0) ↔ FIXABLE (a + b) = false)
    ∧ (FIXABLE (a + b) = true →
        (LONG2FIX a + LONG2FIX b + (2 ^ 64 - 1)) % 2 ^ 64 = LONG2FIX (a + b))
    ∧ (FIXABLE (a + b) = false →
        toSigned ((((LONG2FIX a + LONG2FIX b + (2 ^ 64 - 1)) % 2 ^ 64) >>> 1)
          ||| (LONG2FIX a &&& 2 ^ 63)) = a + b) := by
  unfold fixnumMin at ha1 hb1
  unfold fixnumMax at ha2 hb2
  have hAi := LONG2FIX_int a
  have hBi := LONG2FIX_int b
  have hA64 := LONG2FIX_lt a
  have hB64 := LONG2FIX_lt b
  set A := LONG2FIX a with hA
  set B := LONG2FIX b with hB
  set V : Nat := (A + B + (2 ^ 64 - 1)) % 2 ^ 64 with hVdef
  have hV64 : V < 2 ^ 64 := Nat.mod_lt _ (by positivity)
  have hVi : (V : Int) = ((A : Int) + (B : Int) + (2 ^ 64 - 1)) % 2 ^ 64 := by
    rw [hVdef]
    push_cast
    norm_num
  have hfix := FIXABLE_iff (a + b)
  have hcond := overflow_cond_iff hA64 hB64 hV64
  have hVsplit : V = 2 * (V / 2) + V % 2 := (Nat.div_add_mod V 2).symm
  have hy : ((V / 2 : Nat) : Int) = ((V : Int) - (V : Int) % 2) / 2 := by omega
  rw [shiftRight_one]
  rcases hbA : A.testBit 63 <;> rcases hbB : B.testBit 63 <;> rcases hbV : V.testBit 63
  all_goals
    first
    | (have hA63 : ¬ 2 ^ 63 ≤ A := by rw [← testBit63_iff hA64, hbA]; simp)
    | (have hA63 : 2 ^ 63 ≤ A := (testBit63_iff hA64).mp hbA)
  all_goals
    first
    | (have hB63 : ¬ 2 ^ 63 ≤ B := by rw [← testBit63_iff hB64, hbB]; simp)
    | (have hB63 : 2 ^ 63 ≤ B := (testBit63_iff hB64).mp hbB)
  all_goals
    first
    | (have hV63 : ¬ 2 ^ 63 ≤ V := by rw [← testBit63_iff hV64, hbV]; simp)
    | (have hV63 : 2 ^ 63 ≤ V := (testBit63_iff hV64).mp hbV)
  all_goals rw [hcond]
  all_goals simp only [hbA, hbB, hbV]
  all_goals norm_num
  -- overflow-test sign analysis, one case per sign-bit combination
  · exact ⟨by rw [hfix]; omega,
      fun _ => by have hL := LONG2FIX_int (a + b); omega,
      fun hf => by
        have h1 : FIXABLE (a + b) = true := by rw [hfix]; omega
        rw [h1] at hf
        exact Bool.noConfusion hf⟩
  · refine ⟨?_, fun hf => absurd (hfix.mp hf) (by omega), fun _ => ?_⟩
    · have hnf : ¬ (FIXABLE (a + b) = true) := by rw [hfix]; omega
      simpa using hnf
    · have hmsb : (9223372036854775808 : ℕ) = 2 ^ 63 := by norm_num
      rw [hmsb, land_msb_of_testBit_false hbA, Nat.or_zero, toSigned_eq]
      split <;> omega
  · exact ⟨by rw [hfix]; omega,
      fun _ => by have hL := LONG2FIX_int (a + b); omega,
      fun hf => by
        have h1 : FIXABLE (a + b) = true := by rw [hfix]; omega
        rw [h1] at hf
        exact Bool.noConfusion hf⟩
  · exact ⟨by rw [hfix]; omega,
      fun _ => by have hL := LONG2FIX_int (a + b); omega,
      fun hf => by
        have h1 : FIXABLE (a + b) = true := by rw [hfix]; omega
        rw [h1] at hf
        exact Bool.noConfusion hf⟩
  · exact ⟨by rw [hfix]; omega,
      fun _ => by have hL := LONG2FIX_int (a + b); omega,
      fun hf => by
        have h1 : FIXABLE (a + b) = true := by rw [hfix]; omega
        rw [h1] at hf
        exact Bool.noConfusion hf⟩
  · exact ⟨by rw [hfix]; omega,
      fun _ => by have hL := LONG2FIX_int (a + b); omega,
      fun hf => by
        have h1 : FIXABLE (a + b) = true := by rw [hfix]; omega
        rw [h1] at hf
        exact Bool.noConfusion hf⟩
  · refine ⟨?_, fun hf => absurd (hfix.mp hf) (by omega), fun _ => ?_⟩
    · have hnf : ¬ (FIXABLE (a + b) = true) := by rw [hfix]; omega
      simpa using hnf
    · have hmsb : (9223372036854775808 : ℕ) = 2 ^ 63 := by norm_num
      have h2 : V / 2 < 2 ^ 63 := by omega
      rw [hmsb, land_msb_of_testBit_true hbA, lor_msb_of_lt h2, toSigned_eq]
      push_cast
      split <;> omega
  · exact ⟨by rw [hfix]; omega,
      fun _ => by have hL := LONG2FIX_int (a + b); omega,
      fun hf => by
        have h1 : FIXABLE (a + b) = true := by rw [hfix]; omega
        rw [h1] at hf
        exact Bool.noConfusion hf⟩

end RtlMjit

namespace RtlMjit

theorem fix_num_plus_exact {a b : Int} (ha1 : fixnumMin ≤ a) (ha2 : a ≤ fixnumMax)
    (hb1 : fixnumMin ≤ b) (hb2 : b ≤ fixnumMax) :
    fix_num_plus (LONG2FIX a) (LONG2FIX b) = LONG2NUM (a + b) := by
  obtain ⟨h1, h2, h3⟩ := plus_bits ha1 ha2 hb1 hb2
  simp only [fix_num_plus, w64, msb]
  by_cases hc : (((LONG2FIX a ^^^ LONG2FIX b) ^^^ (2 ^ 64 - 1))
      &&& (LONG2FIX a ^^^ ((LONG2FIX a + LONG2FIX b + (2 ^ 64 - 1)) % 2 ^ 64)))
      &&& 2 ^ 63 ≠ 0
  · rw [if_pos hc, h3 (h1.mp hc)]
    simp [LONG2NUM, h1.mp hc, rb_int2big]
  · have hfx : FIXABLE (a + b) = true := by
      cases hfc : FIXABLE (a + b)
      · exact absurd (h1.mpr hfc) hc
      · rfl
    rw [if_neg hc, h2 hfx]
    simp [LONG2NUM, hfx]

theorem spec_fix_num_plus_eq {a b : Int} (ha1 : fixnumMin ≤ a) (ha2 : a ≤ fixnumMax)
    (hb1 : fixnumMin ≤ b) (hb2 : b ≤ fixnumMax) :
    spec_fix_num_plus (LONG2FIX a) (LONG2FIX b) =
      if FIXABLE (a + b) = true then RVal.val (LONG2FIX (a + b)) else Qundef := by
  obtain ⟨h1, h2, h3⟩ := plus_bits ha1 ha2 hb1 hb2
  simp only [spec_fix_num_plus, w64, msb]
  by_cases hc : (((LONG2FIX a ^^^ LONG2FIX b) ^^^ (2 ^ 64 - 1))
      &&& (LONG2FIX a ^^^ ((LONG2FIX a + LONG2FIX b + (2 ^ 64 - 1)) % 2 ^ 64)))
      &&& 2 ^ 63 ≠ 0
  · rw [if_pos hc, h1.mp hc]
    simp
  · have hfx : FIXABLE (a + b) = true := by
      cases hfc : FIXABLE (a + b)
      · exact absurd (h1.mpr hfc) hc
      · rfl
    rw [if_neg hc, hfx, h2 hfx]
    simp

theorem neg_tmod (a b : Int) : (-a).tmod b = -(a.tmod b) := by
  rw [Int.tmod_def, Int.tmod_def, Int.neg_tdiv]
  ring

theorem tmod_range {a b : Int} (hb : b ≠ 0) :
    -((b.natAbs : Int)) < a.tmod b ∧ a.tmod b < (b.natAbs : Int) := by
  have key : ∀ x y : Int, 0 < y → -(y) < x.tmod y ∧ x.tmod y < y := by
    intro x y hy
    rcases le_or_lt 0 x with hx | hx
    · refine ⟨?_, Int.tmod_lt_of_pos x hy⟩
      have := Int.tmod_nonneg y hx
      omega
    · have h1 : x.tmod y = -((-x).tmod y) := by
        have := neg_tmod (-x) y
        simp at this
        omega
      have h2 := Int.tmod_nonneg y (show (0 : Int) ≤ -x by omega)
      have h3 := Int.tmod_lt_of_pos (-x) hy
      omega
  rcases lt_or_gt_of_ne hb with hneg | hpos
  · have h1 : a.tmod b = a.tmod (-b) := (Int.tmod_neg a b).symm ▸ rfl
    have h2 := key a (-b) (by omega)
    rw [Int.tmod_neg] at h2
    have : (b.natAbs : Int) = -b := by omega
    omega
  · have h2 := key a b hpos
    have : (b.natAbs : Int) = b := by omega
    omega

theorem fixFloorDiv_sandwich {l1 l2 : Int} (hz : l2 ≠ 0) :
    (0 < l2 → l2 * fixFloorDiv l1 l2 ≤ l1 ∧ l1 < l2 * fixFloorDiv l1 l2 + l2)
    ∧ (l2 < 0 → l2 * fixFloorDiv l1 l2 + l2 < l1 ∧ l1 ≤ l2 * fixFloorDiv l1 l2) := by
  have hE := Int.tdiv_add_tmod l1 l2
  have hm := tmod_range (a := l1) hz
  unfold fixFloorDiv
  have hr : l2 * (l1.tdiv l2 - 1) = l2 * l1.tdiv l2 - l2 := by ring
  constructor
  · intro hpos
    have habs : (l2.natAbs : Int) = l2 := by omega
    rw [habs] at hm
    split
    · split
      · constructor <;> linarith
      · rename_i h
        push_neg at h
        constructor <;> linarith
    · omega
  · intro hneg
    have habs : (l2.natAbs : Int) = -l2 := by omega
    rw [habs] at hm
    split
    · omega
    · split
      · constructor <;> linarith
      · rename_i h
        push_neg at h
        constructor <;> linarith

theorem fixFloorDiv_fixable {l1 l2 : Int}
    (h11 : fixnumMin ≤ l1) (h12 : l1 ≤ fixnumMax)
    (h21 : fixnumMin ≤ l2) (h22 : l2 ≤ fixnumMax)
    (hz : l2 ≠ 0) (hx : ¬(l1 = fixnumMin ∧ l2 = -1)) :
    fixnumMin ≤ fixFloorDiv l1 l2 ∧ fixFloorDiv l1 l2 ≤ fixnumMax := by
  obtain ⟨hpos, hneg⟩ := @fixFloorDiv_sandwich l1 l2 hz
  set q := fixFloorDiv l1 l2 with hq
  unfold fixnumMin at h11 h21 hx
  unfold fixnumMax at h12 h22
  unfold fixnumMin fixnumMax
  rcases lt_or_gt_of_ne hz with hn | hp
  · obtain ⟨hs1, hs2⟩ := hneg hn
    constructor
    · by_contra hcon
      push_neg at hcon
      have hq1 : -(q + 1) ≥ 2 ^ 62 := by omega
      have : 1 * (-(q + 1)) ≤ (-l2) * (-(q + 1)) :=
        mul_le_mul_of_nonneg_right (by omega) (by omega)
      have hr : (-l2) * (-(q + 1)) = l2 * q + l2 := by ring
      linarith
    · by_contra hcon
      push_neg at hcon
      have hq2 : q ≥ 2 ^ 62 := by omega
      have h1q : 1 * q ≤ (-l2) * q := mul_le_mul_of_nonneg_right (by omega) (by omega)
      have hr : (-l2) * q = -(l2 * q) := by ring
      have hl1 : l1 = -(2 ^ 62) := by linarith
      have hk2 : -l2 < 2 := by
        by_contra hk
        push_neg at hk
        have : 2 * q ≤ (-l2) * q := mul_le_mul_of_nonneg_right (by omega) (by omega)
        linarith
      have hl2 : l2 = -1 := by omega
      exact hx ⟨hl1, hl2⟩
  · obtain ⟨hs1, hs2⟩ := hpos hp
    constructor
    · by_contra hcon
      push_neg at hcon
      have : l2 * (q + 1) ≤ 1 * (q + 1) :=
        mul_le_mul_of_nonpos_right (by omega) (by omega)
      have hr : l2 * (q + 1) = l2 * q + l2 := by ring
      linarith
    · by_contra hcon
      push_neg at hcon
      have : 1 * q ≤ l2 * q := mul_le_mul_of_nonneg_right (by omega) (by omega)
      linarith

theorem fixFloorMod_fixable {l1 l2 : Int}
    (h21 : fixnumMin ≤ l2) (h22 : l2 ≤ fixnumMax) (hz : l2 ≠ 0) :
    fixnumMin ≤ fixFloorMod l1 l2 ∧ fixFloorMod l1 l2 ≤ fixnumMax := by
  have hm := tmod_range (a := l1) hz
  unfold fixnumMin at h21
  unfold fixnumMax at h22
  unfold fixnumMin fixnumMax fixFloorMod
  rcases lt_or_gt_of_ne hz with hn | hp
  · have habs : (l2.natAbs : Int) = -l2 := by omega
    rw [habs] at hm
    split <;> omega
  · have habs : (l2.natAbs : Int) = l2 := by omega
    rw [habs] at hm
    split <;> omega

theorem FIX2LONG_range (v : Nat) (hv : v < 2 ^ 64) :
    fixnumMin ≤ FIX2LONG v ∧ FIX2LONG v ≤ fixnumMax := by
  rw [FIX2LONG_eq, toSigned_eq]
  unfold fixnumMin fixnumMax
  split <;> omega

end RtlMjit

namespace RtlMjit

theorem spec_generic_agree_plus {A B : Nat}
    (h : spec_fix_num_plus A B ≠ Qundef) :
    fix_num_plus A B = spec_fix_num_plus A B := by
  simp only [spec_fix_num_plus] at h ⊢
  simp only [fix_num_plus]
  split at h
  · exact absurd rfl h
  · rename_i hc
    rw [if_neg hc, if_neg hc]

theorem spec_generic_agree_minus {A B : Nat}
    (h : spec_fix_num_minus A B ≠ Qundef) :
    fix_num_minus A B = spec_fix_num_minus A B := by
  simp only [spec_fix_num_minus] at h ⊢
  simp only [fix_num_minus, LONG2NUM]
  split at h
  · exact absurd rfl h
  · rename_i hc
    simp only [Bool.not_eq_true', Bool.not_eq_false] at hc
    simp [hc]

theorem spec_generic_agree_mult {A B : Nat}
    (h : spec_fix_num_mult A B ≠ Qundef) :
    fix_num_mult A B = spec_fix_num_mult A B := by
  simp only [spec_fix_num_mult] at h ⊢
  simp only [fix_num_mult, rb_fix_mul_fix, LONG2NUM]
  split at h
  · rename_i hc
    simp [hc]
  · exact absurd rfl h

theorem spec_generic_agree_div {A B : Nat} (hA : A < 2 ^ 64) (hB : B < 2 ^ 64)
    (h : spec_fix_num_div A B ≠ Qundef) :
    fix_num_div A B = spec_fix_num_div A B := by
  obtain ⟨ra1, ra2⟩ := FIX2LONG_range A hA
  obtain ⟨rb1, rb2⟩ := FIX2LONG_range B hB
  simp only [spec_fix_num_div] at h ⊢
  simp only [fix_num_div, rb_fix_div_fix]
  by_cases hz : FIX2LONG B = 0
  · rw [if_pos hz] at h
    exact absurd rfl h
  · rw [if_neg hz, if_neg hz]
    by_cases hmm : FIX2LONG A = fixnumMin ∧ FIX2LONG B = -1
    · rw [if_pos hmm, if_pos hmm]
    · rw [if_neg hmm, if_neg hmm]
      obtain ⟨hd1, hd2⟩ := fixFloorDiv_fixable ra1 ra2 rb1 rb2 hz hmm
      unfold LONG2NUM
      rw [if_pos (by unfold FIXABLE; exact decide_eq_true ⟨hd1, hd2⟩)]

theorem spec_generic_agree_mod {A B : Nat} (hA : A < 2 ^ 64) (hB : B < 2 ^ 64)
    (h : spec_fix_num_mod A B ≠ Qundef) :
    fix_num_mod A B = spec_fix_num_mod A B := by
  obtain ⟨rb1, rb2⟩ := FIX2LONG_range B hB
  simp only [spec_fix_num_mod] at h ⊢
  simp only [fix_num_mod, rb_fix_mod_fix]
  by_cases hz : FIX2LONG B = 0
  · rw [if_pos hz] at h
    exact absurd rfl h
  · rw [if_neg hz, if_neg hz]
    by_cases hmm : FIX2LONG A = fixnumMin ∧ FIX2LONG B = -1
    · rw [if_pos hmm, if_pos hmm]
      unfold LONG2NUM
      rw [if_pos (by unfold FIXABLE fixnumMin fixnumMax; norm_num)]
    · rw [if_neg hmm, if_neg hmm]
      obtain ⟨hd1, hd2⟩ := @fixFloorMod_fixable (FIX2LONG A) (FIX2LONG B) rb1 rb2 hz
      unfold LONG2NUM
      rw [if_pos (by unfold FIXABLE; exact decide_eq_true ⟨hd1, hd2⟩)]

end RtlMjit

namespace RtlMjit

theorem c1_arith_core (ext : ExecExt) (op1 op2 : RVal) (bop : Bop)
    (fgen fspec : Nat → Nat → RVal) (flo dbl : RVal → RVal → RVal)
    (b chg : Bool) (fid flid u : Nat)
    (hagree : fspec (rvWord op1) (rvWord op2) ≠ Qundef →
      fgen (rvWord op1) (rvWord op2) = fspec (rvWord op1) (rvWord op2))
    (hf : FIXNUM_2_P op1 op2 = true)
    (hu : ext.basic_op_unredefined_p bop .integer = true)
    (hfail : (do_spec_fix_arithm ext op1 op2 bop fspec b u).failed = false) :
    ∃ v, (do_spec_fix_arithm ext op1 op2 bop fspec b u).written = some v
      ∧ do_arithm ext op1 op2 bop fgen flo dbl b false chg fid flid
          = .fast v (if chg then some fid else none) := by
  have hfp1 : FIXNUM_P op1 = true := by
    simp only [FIXNUM_2_P, Bool.and_eq_true] at hf
    exact hf.1
  have hguard : ((b && FIXNUM_P op1) || (!b && FIXNUM_2_P op1 op2)) = true := by
    cases b <;> simp [hfp1, hf]
  have hguard1 :
      (!ext.mjit_bop_redefined_p || ext.basic_op_unredefined_p bop .integer) = true := by
    simp [hu]
  simp only [do_spec_fix_arithm, hguard, hguard1, Bool.and_self, if_true] at hfail ⊢
  by_cases hq : fspec (rvWord op1) (rvWord op2) = Qundef
  · simp [hq] at hfail
  · refine ⟨fspec (rvWord op1) (rvWord op2), by simp [hq], ?_⟩
    have hgeq := hagree hq
    have hga : (((b && FIXNUM_P op1)
        || (!b && !false && FIXNUM_2_P op1 op2))
        && ext.basic_op_unredefined_p bop .integer) = true := by
      cases b <;> simp [hfp1, hf, hu]
    simp only [do_arithm, hga, if_true]
    rw [hgeq]
    simp [hq]

theorem c1_cmp_core (ext : ExecExt) (op1 op2 : RVal) (bop : Bop)
    (cmp : Nat → Nat → Bool) (flo dbl : RVal → RVal → Bool)
    (b chg : Bool) (fid flid u : Nat)
    (hf : FIXNUM_2_P op1 op2 = true)
    (hu : ext.basic_op_unredefined_p bop .integer = true) :
    ∃ v, (do_spec_fix_cmp ext op1 op2 bop cmp b u).failed = false
      ∧ (do_spec_fix_cmp ext op1 op2 bop cmp b u).written = some v
      ∧ do_cmp ext op1 op2 bop cmp flo dbl b false chg fid flid
          = .fast v (if chg then some fid else none) := by
  have hfp1 : FIXNUM_P op1 = true := by
    simp only [FIXNUM_2_P, Bool.and_eq_true] at hf
    exact hf.1
  have hguard : ((b && FIXNUM_P op1) || (!b && FIXNUM_2_P op1 op2)) = true := by
    cases b <;> simp [hfp1, hf]
  have hguard1 :
      (!ext.mjit_bop_redefined_p || ext.basic_op_unredefined_p bop .integer) = true := by
    simp [hu]
  have hnund : (if cmp (rvWord op1) (rvWord op2) then Qtrue else Qfalse) ≠ Qundef := by
    split <;> simp [Qtrue, Qfalse, Qundef, QtrueW, QfalseW, QundefW]
  refine ⟨if cmp (rvWord op1) (rvWord op2) then Qtrue else Qfalse, ?_, ?_, ?_⟩
  · simp only [do_spec_fix_cmp, common_spec_fix_cmp, hguard, hguard1, Bool.and_self, if_true]
    rw [if_neg hnund]
  · simp only [do_spec_fix_cmp, common_spec_fix_cmp, hguard, hguard1, Bool.and_self, if_true]
    rw [if_neg hnund]
  · have hga : (((b && FIXNUM_P op1)
        || (!b && !false && FIXNUM_2_P op1 op2))
        && ext.basic_op_unredefined_p bop .integer) = true := by
      cases b <;> simp [hfp1, hf, hu]
    simp only [do_cmp, hga, if_true]

end RtlMjit

namespace RtlMjit

theorem fixnum_not_flonum {v : Nat} (h : wordFixnumP v = true) : wordFlonumP v = false := by
  unfold wordFixnumP at h
  unfold wordFlonumP
  simp only [beq_iff_eq] at h
  simp only [beq_eq_false_iff_ne]
  omega

theorem fixnum_special_const {v : Nat} (h : wordFixnumP v = true) :
    SPECIAL_CONST_P (.val v) = true := by
  unfold wordFixnumP at h
  simp only [beq_iff_eq] at h
  have h0 : (v &&& 7).testBit 0 = true := by
    rw [Nat.testBit_and]
    have h1 : v.testBit 0 = true := by
      rw [Nat.testBit_zero]
      simp [h]
    rw [h1]
    decide
  have hne : v &&& 7 ≠ 0 := by
    intro hz
    rw [hz] at h0
    simp at h0
  simp [SPECIAL_CONST_P, hne]

theorem fixnum_p_flonum_false {op : RVal} (h : FIXNUM_P op = true) :
    FLONUM_P op = false := by
  cases op with
  | val v =>
    simp only [FIXNUM_P] at h
    simp only [FLONUM_P]
    exact fixnum_not_flonum h
  | big i => rfl

theorem fixnum_p_special_const {op : RVal} (h : FIXNUM_P op = true) :
    SPECIAL_CONST_P op = true := by
  cases op with
  | val v => exact fixnum_special_const h
  | big i => exact absurd h (by simp [FIXNUM_P])

end RtlMjit

namespace RtlMjit

/-- C1 counterexample: the claim asserts speculative/generic equivalence
for every operand pair satisfying the type/redefinition precondition
alone.  At `op1 = op2 = LONG2FIX FIXNUM_MAX` that precondition holds
(both fixnums, `+` unredefined), yet the speculative handler
(`do_spec_fix_arithm` with `spec_fix_num_plus`) stores nothing, reports
the unchanging opcode and returns `TRUE`, while the generic handler
(`do_arithm` with `fix_num_plus`) stores the promoted bignum
`2 * FIXNUM_MAX = 2^63 - 2`: the two outcomes differ. -/
theorem c1_counterexample :
    FIXNUM_2_P (.val (LONG2FIX fixnumMax)) (.val (LONG2FIX fixnumMax)) = true
    ∧ sampleExt.basic_op_unredefined_p .plus .integer = true
    ∧ (do_spec_fix_arithm sampleExt (.val (LONG2FIX fixnumMax))
        (.val (LONG2FIX fixnumMax)) .plus spec_fix_num_plus false 7)
        = ⟨none, some 7, true⟩
    ∧ do_arithm sampleExt (.val (LONG2FIX fixnumMax)) (.val (LONG2FIX fixnumMax))
        .plus fix_num_plus (fun _ _ => Qundef) (fun _ _ => Qundef)
        false false true 3 4
        = .fast (rb_int2big (2 ^ 63 - 2)) (some 3) := by
  decide

/-- C1 (amended): for every fixnum arithmetic or comparison opcode with a
speculative form, and every operand pair satisfying the speculative
form's full precondition — fixnum operands, the integer operation
unredefined, and (for arithmetic) the speculative fast path not
reporting a value-range failure — the speculative handler and the
generic handler store the identical result value; neither fast path
touches any call-site cache or validity stamp (neither embedded handler
has a cache effect), the only side-effect difference being the generic
handler's self-rewrite of the opcode. -/
theorem c1_spec_generic_equivalence :
    (∀ (o : FixArithOp) (ext : ExecExt) (op1 op2 : RVal)
        (flo dbl : RVal → RVal → RVal) (b chg : Bool) (fid flid u : Nat),
      rvWord op1 < 2 ^ 64 → rvWord op2 < 2 ^ 64 →
      FIXNUM_2_P op1 op2 = true →
      ext.basic_op_unredefined_p (faBop o) .integer = true →
      (do_spec_fix_arithm ext op1 op2 (faBop o) (faSpec o) b u).failed = false →
      ∃ v, (do_spec_fix_arithm ext op1 op2 (faBop o) (faSpec o) b u).written = some v
        ∧ do_arithm ext op1 op2 (faBop o) (faGeneric o) flo dbl b false chg fid flid
            = .fast v (if chg then some fid else none))
    ∧ (∀ (o : FixCmpOp) (ext : ExecExt) (op1 op2 : RVal)
        (flo dbl : RVal → RVal → Bool) (b chg : Bool) (fid flid u : Nat),
      FIXNUM_2_P op1 op2 = true →
      ext.basic_op_unredefined_p (fcBop o) .integer = true →
      ∃ v, (do_spec_fix_cmp ext op1 op2 (fcBop o) (fcCmp o) b u).failed = false
        ∧ (do_spec_fix_cmp ext op1 op2 (fcBop o) (fcCmp o) b u).written = some v
        ∧ do_cmp ext op1 op2 (fcBop o) (fcCmp o) flo dbl b false chg fid flid
            = .fast v (if chg then some fid else none)) := by
  constructor
  · intro o ext op1 op2 flo dbl b chg fid flid u h1 h2 hf hu hfail
    cases o with
    | plus =>
      exact c1_arith_core ext op1 op2 _ _ _ flo dbl b chg fid flid u
        (fun hq => spec_generic_agree_plus hq) hf hu hfail
    | minus =>
      exact c1_arith_core ext op1 op2 _ _ _ flo dbl b chg fid flid u
        (fun hq => spec_generic_agree_minus hq) hf hu hfail
    | mult =>
      exact c1_arith_core ext op1 op2 _ _ _ flo dbl b chg fid flid u
        (fun hq => spec_generic_agree_mult hq) hf hu hfail
    | div =>
      exact c1_arith_core ext op1 op2 _ _ _ flo dbl b chg fid flid u
        (fun hq => spec_generic_agree_div h1 h2 hq) hf hu hfail
    | mod =>
      exact c1_arith_core ext op1 op2 _ _ _ flo dbl b chg fid flid u
        (fun hq => spec_generic_agree_mod h1 h2 hq) hf hu hfail
  · intro o ext op1 op2 flo dbl b chg fid flid u hf hu
    cases o <;> exact c1_cmp_core ext op1 op2 _ _ flo dbl b chg fid flid u hf hu

/-- C1 witness: the amended equivalence applied at the concrete fixnum
pair `1 + 2` (words `3`, `5`) and at the comparison `1 = 2`, in the
environment with nothing redefined. -/
theorem c1_spec_generic_equivalence_witness :
    (∃ v, (do_spec_fix_arithm sampleExt (.val 3) (.val 5) (faBop .plus)
        (faSpec .plus) false 7).written = some v
      ∧ do_arithm sampleExt (.val 3) (.val 5) (faBop .plus) (faGeneric .plus)
          (fun _ _ => Qundef) (fun _ _ => Qundef) false false true 3 4
          = .fast v (if true then some 3 else none))
    ∧ (∃ v, (do_spec_fix_cmp sampleExt (.val 3) (.val 5) (fcBop .ceq)
        (fcCmp .ceq) false 7).failed = false
      ∧ (do_spec_fix_cmp sampleExt (.val 3) (.val 5) (fcBop .ceq)
          (fcCmp .ceq) false 7).written = some v
      ∧ do_cmp sampleExt (.val 3) (.val 5) (fcBop .ceq) (fcCmp .ceq)
          (fun _ _ => false) (fun _ _ => false) false false true 3 4
          = .fast v (if true then some 3 else none)) :=
  ⟨c1_spec_generic_equivalence.1 .plus sampleExt (.val 3) (.val 5)
      (fun _ _ => Qundef) (fun _ _ => Qundef) false true 3 4 7
      (by decide) (by decide) (by decide) (by decide) (by decide),
   c1_spec_generic_equivalence.2 .ceq sampleExt (.val 3) (.val 5)
      (fun _ _ => false) (fun _ _ => false) false true 3 4 7
      (by decide) (by decide)⟩

end RtlMjit

namespace RtlMjit

/-- C4: for every fixnum dividend and the fixnum zero divisor (tagged
word `LONG2FIX 0`), the generic fixnum fast paths `fix_num_div` and
`fix_num_mod` return the recoverable `Qundef` sentinel instead of
trapping, and the surrounding generic handler `do_arithm` then falls
through to the full dynamic dispatch `op2_call` (outcome `.slow`),
storing no result and rewriting no opcode — for any redefinition state,
any `change_p`, and both the unknown-type and known-fixnum second-operand
variants. -/
theorem c4_div_mod_zero_fallback (ext : ExecExt) (op1 : RVal)
    (b chg : Bool) (fid flid : Nat) (flo dbl : RVal → RVal → RVal)
    (hf : FIXNUM_P op1 = true) :
    fix_num_div (rvWord op1) (LONG2FIX 0) = Qundef
    ∧ fix_num_mod (rvWord op1) (LONG2FIX 0) = Qundef
    ∧ do_arithm ext op1 (.val (LONG2FIX 0)) .div fix_num_div flo dbl
        b false chg fid flid = .slow
    ∧ do_arithm ext op1 (.val (LONG2FIX 0)) .mod fix_num_mod flo dbl
        b false chg fid flid = .slow := by
  have hz : FIX2LONG (LONG2FIX 0) = 0 := by decide
  have hdiv : fix_num_div (rvWord op1) (LONG2FIX 0) = Qundef := by
    unfold fix_num_div
    rw [if_pos hz]
  have hmod : fix_num_mod (rvWord op1) (LONG2FIX 0) = Qundef := by
    unfold fix_num_mod
    rw [if_pos hz]
  have hq1 : FIXNUM_P (.val (LONG2FIX 0)) = true := by
    simp [FIXNUM_P, LONG2FIX_fixnum_p]
  have hf2 : FIXNUM_2_P op1 (.val (LONG2FIX 0)) = true := by
    simp [FIXNUM_2_P, hf, hq1]
  have hfl : FLONUM_P op1 = false := fixnum_p_flonum_false hf
  have hsc : SPECIAL_CONST_P op1 = true := fixnum_p_special_const hf
  have harith : ∀ bop fop, bop = Bop.div ∨ bop = Bop.mod →
      fop (rvWord op1) (rvWord (RVal.val (LONG2FIX 0))) = Qundef →
      do_arithm ext op1 (.val (LONG2FIX 0)) bop fop flo dbl
        b false chg fid flid = .slow := by
    intro bop fop hbop hq
    by_cases hu : ext.basic_op_unredefined_p bop .integer = true
    · have hguard : (((b && FIXNUM_P op1)
          || (!b && !false && FIXNUM_2_P op1 (.val (LONG2FIX 0))))
          && ext.basic_op_unredefined_p bop .integer) = true := by
        cases b <;> simp [hf, hf2, hu]
      simp only [do_arithm, hguard, if_true, hq]
      rcases hbop with h | h <;> subst h <;> simp
    · have hng : (((b && FIXNUM_P op1)
          || (!b && !false && FIXNUM_2_P op1 (.val (LONG2FIX 0))))
          && ext.basic_op_unredefined_p bop .integer) = false := by
        simp only [Bool.eq_false_iff] at hu ⊢
        intro hcon
        exact hu (Bool.and_elim_right hcon)
      have hfl2 : FLONUM_2_P op1 (.val (LONG2FIX 0)) = false := by
        simp [FLONUM_2_P, hfl]
      have hng2 : (((false && FLONUM_P op1)
          || (!b && !false && FLONUM_2_P op1 (.val (LONG2FIX 0))))
          && ext.basic_op_unredefined_p bop .float) = false := by
        simp [hfl2]
      have hng3 : (!b && !false && !SPECIAL_CONST_P op1
          && !SPECIAL_CONST_P (RVal.val (LONG2FIX 0))) = false := by
        simp [hsc]
      simp only [do_arithm, hng, hng2, hng3, Bool.false_eq_true, if_false]
  exact ⟨hdiv, hmod,
    harith .div fix_num_div (Or.inl rfl) hdiv,
    harith .mod fix_num_mod (Or.inr rfl) hmod⟩

/-- C4 witness: the fallback at the concrete dividend `5` (word `11`)
and divisor `0` (word `1`). -/
theorem c4_div_mod_zero_fallback_witness :
    fix_num_div 11 (LONG2FIX 0) = Qundef
    ∧ fix_num_mod 11 (LONG2FIX 0) = Qundef
    ∧ do_arithm sampleExt (.val 11) (.val (LONG2FIX 0)) .div fix_num_div
        (fun _ _ => Qundef) (fun _ _ => Qundef) false false true 3 4 = .slow
    ∧ do_arithm sampleExt (.val 11) (.val (LONG2FIX 0)) .mod fix_num_mod
        (fun _ _ => Qundef) (fun _ _ => Qundef) false false true 3 4 = .slow :=
  c4_div_mod_zero_fallback sampleExt (.val 11) false true 3 4
    (fun _ _ => Qundef) (fun _ _ => Qundef) (by decide)

/-- C5: for fixnum operands, the generic addition and subtraction fast
paths return the mathematically exact sum/difference: promoted to the
arbitrary-precision representation (`rb_int2big` / the bignum arm of
`LONG2NUM`) exactly when the result leaves the fixnum range, and the
exact tagged fixnum otherwise — never a wrapped or truncated value. -/
theorem c5_overflow_promotes_exactly (a b : Int)
    (ha1 : fixnumMin ≤ a) (ha2 : a ≤ fixnumMax)
    (hb1 : fixnumMin ≤ b) (hb2 : b ≤ fixnumMax) :
    (fix_num_plus (LONG2FIX a) (LONG2FIX b) = LONG2NUM (a + b)
      ∧ (FIXABLE (a + b) = false →
          fix_num_plus (LONG2FIX a) (LONG2FIX b) = rb_int2big (a + b))
      ∧ (FIXABLE (a + b) = true →
          fix_num_plus (LONG2FIX a) (LONG2FIX b) = .val (LONG2FIX (a + b))))
    ∧ (fix_num_minus (LONG2FIX a) (LONG2FIX b) = LONG2NUM (a - b)
      ∧ (FIXABLE (a - b) = false →
          fix_num_minus (LONG2FIX a) (LONG2FIX b) = rb_int2big (a - b))
      ∧ (FIXABLE (a - b) = true →
          fix_num_minus (LONG2FIX a) (LONG2FIX b) = .val (LONG2FIX (a - b)))) := by
  have hplus := fix_num_plus_exact ha1 ha2 hb1 hb2
  have hminus : fix_num_minus (LONG2FIX a) (LONG2FIX b) = LONG2NUM (a - b) := by
    unfold fix_num_minus
    rw [FIX2LONG_LONG2FIX ha1 ha2, FIX2LONG_LONG2FIX hb1 hb2]
  refine ⟨⟨hplus, ?_, ?_⟩, ⟨hminus, ?_, ?_⟩⟩
  · intro hnf
    rw [hplus]
    simp [LONG2NUM, hnf]
  · intro hfx
    rw [hplus]
    simp [LONG2NUM, hfx]
  · intro hnf
    rw [hminus]
    simp [LONG2NUM, hnf]
  · intro hfx
    rw [hminus]
    simp [LONG2NUM, hfx]

/-- C5 witness: exactness at `2 + 3` and `2 - 3`. -/
theorem c5_overflow_promotes_exactly_witness :
    (fix_num_plus (LONG2FIX 2) (LONG2FIX 3) = LONG2NUM (2 + 3)
      ∧ (FIXABLE (2 + 3 : Int) = false →
          fix_num_plus (LONG2FIX 2) (LONG2FIX 3) = rb_int2big (2 + 3))
      ∧ (FIXABLE (2 + 3 : Int) = true →
          fix_num_plus (LONG2FIX 2) (LONG2FIX 3) = .val (LONG2FIX (2 + 3))))
    ∧ (fix_num_minus (LONG2FIX 2) (LONG2FIX 3) = LONG2NUM (2 - 3)
      ∧ (FIXABLE (2 - 3 : Int) = false →
          fix_num_minus (LONG2FIX 2) (LONG2FIX 3) = rb_int2big (2 - 3))
      ∧ (FIXABLE (2 - 3 : Int) = true →
          fix_num_minus (LONG2FIX 2) (LONG2FIX 3) = .val (LONG2FIX (2 - 3)))) :=
  c5_overflow_promotes_exactly 2 3 (by decide) (by decide) (by decide) (by decide)

end RtlMjit

namespace RtlMjit

/-- C7 counterexample: the claim asserts that every execution of a
conditional branch checks for pending interrupts regardless of the
branch outcome; but `bt_f` on the word `Qfalse` (branch not taken) and
`bf_f` on the word `Qtrue` (branch not taken) and `bnil_f` on a
non-nil word return without running `RUBY_VM_CHECK_INTS`. -/
theorem c7_counterexample :
    (bt_f QfalseW).checkedInts = false
    ∧ (bf_f QtrueW).checkedInts = false
    ∧ (bnil_f QtrueW).checkedInts = false := by
  decide

/-- C7 (amended): a conditional branch instruction (`bt`, `bf`, `bnil`)
checks for pending asynchronous interrupts exactly when the branch is
taken; on the not-taken outcome the handler performs no interrupt
check. -/
theorem c7_branch_checks_ints_iff_taken (v : Nat) :
    (bt_f v).checkedInts = (bt_f v).taken
    ∧ (bf_f v).checkedInts = (bf_f v).taken
    ∧ (bnil_f v).checkedInts = (bnil_f v).taken := by
  unfold bt_f bf_f bnil_f
  refine ⟨?_, ?_, ?_⟩ <;> split <;> rfl

/-- C7 witness: the amended statement at the concrete operand
`Qtrue`. -/
theorem c7_branch_checks_ints_iff_taken_witness :
    (bt_f QtrueW).checkedInts = (bt_f QtrueW).taken
    ∧ (bf_f QtrueW).checkedInts = (bf_f QtrueW).taken
    ∧ (bnil_f QtrueW).checkedInts = (bnil_f QtrueW).taken :=
  c7_branch_checks_ints_iff_taken QtrueW

/-- C6: `set_default_sp` establishes the default stack-pointer position
`base + 1 + temp_vars_num` asserted by `check_sp_default`, and
`call_method` — the path every slow-path operation returns through —
restores exactly that position whenever the call completes a value
(directly, or through `mjit_vm_exec` under the JIT), so after any such
operation the invariant `sp = RTL_GET_BP(cfp) + 1 + temp_vars_num`
holds. -/
theorem c6_sp_default_restored (ext : CallExt) (cfp : Frame) :
    check_sp_default ext (set_default_sp cfp (RTL_GET_BP ext cfp))
    ∧ (((ext.cc_call cfp).1 ≠ Qundef ∨ ext.in_mjit_p = true) →
        check_sp_default ext (call_method ext cfp).2) := by
  constructor
  · unfold check_sp_default set_default_sp set_default_sp_0 RTL_GET_BP
    split <;> rfl
  · intro hc
    unfold call_method
    by_cases h1 : (ext.cc_call cfp).1 ≠ Qundef
    · rw [if_pos h1]
      unfold check_sp_default set_default_sp set_default_sp_0 RTL_GET_BP
      split <;> rfl
    · rw [if_neg h1]
      have h2 : ext.in_mjit_p = true := by tauto
      rw [if_pos h2]
      unfold check_sp_default set_default_sp set_default_sp_0 RTL_GET_BP
      split <;> rfl

/-- C6 witness: the restoration at a concrete frame whose call returns
`Qtrue` and leaves `sp = 99`. -/
theorem c6_sp_default_restored_witness :
    check_sp_default sampleCallExt
      (set_default_sp ⟨7, 3, 3, 2⟩ (RTL_GET_BP sampleCallExt ⟨7, 3, 3, 2⟩))
    ∧ (((sampleCallExt.cc_call ⟨7, 3, 3, 2⟩).1 ≠ Qundef
          ∨ sampleCallExt.in_mjit_p = true) →
        check_sp_default sampleCallExt (call_method sampleCallExt ⟨7, 3, 3, 2⟩).2) :=
  c6_sp_default_restored sampleCallExt ⟨7, 3, 3, 2⟩

end RtlMjit

namespace RtlMjit

/-- C2: every speculative handler, on every input where its precondition
fails — wrong operand type tags or a redefined basic operation for all
three families, a value-range failure (`Qundef` from the fast path) for
arithmetic, an out-of-range index for `aind` — writes nothing to the
result location, only reports the designated non-speculative opcode
through its `new_insn` out-parameter and returns `TRUE`, the signal on
which the dispatch loop substitutes that opcode at the current position
and re-executes it. -/
theorem c2_spec_failure_writes_nothing :
    (∀ (ext : ExecExt) (op1 op2 : RVal) (bop : Bop) (f : Nat → Nat → RVal)
        (b : Bool) (u : Nat),
      ¬(((!ext.mjit_bop_redefined_p || ext.basic_op_unredefined_p bop .integer)
          && ((b && FIXNUM_P op1) || (!b && FIXNUM_2_P op1 op2))) = true
        ∧ f (rvWord op1) (rvWord op2) ≠ Qundef) →
      do_spec_fix_arithm ext op1 op2 bop f b u = ⟨none, some u, true⟩)
    ∧ (∀ (ext : ExecExt) (op1 op2 : RVal) (bop : Bop) (c : Nat → Nat → Bool)
        (b : Bool) (u : Nat),
      ¬(((!ext.mjit_bop_redefined_p || ext.basic_op_unredefined_p bop .integer)
          && ((b && FIXNUM_P op1) || (!b && FIXNUM_2_P op1 op2))) = true) →
      do_spec_fix_cmp ext op1 op2 bop c b u = ⟨none, some u, true⟩)
    ∧ (∀ (ext : ExecExt) (op1 op2 : RVal),
      ¬((!SPECIAL_CONST_P op1 && (ext.classOf op1 == ext.cArray)
          && (!ext.mjit_bop_redefined_p || ext.basic_op_unredefined_p .aref .array)
          && FIXNUM_P op2) = true
        ∧ FIX2ULONG (rvWord op2) < ext.aryLen op1) →
      aind_f ext op1 op2 = ⟨none, some uindInsn, true⟩) := by
  refine ⟨?_, ?_, ?_⟩
  · intro ext op1 op2 bop f b u hpre
    by_cases hg : ((!ext.mjit_bop_redefined_p
        || ext.basic_op_unredefined_p bop .integer)
        && ((b && FIXNUM_P op1) || (!b && FIXNUM_2_P op1 op2))) = true
    · have hq : ¬ f (rvWord op1) (rvWord op2) ≠ Qundef := fun hcon => hpre ⟨hg, hcon⟩
      simp only [do_spec_fix_arithm, hg, if_true]
      rw [if_neg hq]
    · simp only [do_spec_fix_arithm]
      rw [if_neg hg]
  · intro ext op1 op2 bop c b u hg
    simp only [do_spec_fix_cmp, common_spec_fix_cmp]
    rw [if_neg hg, if_pos rfl]
  · intro ext op1 op2 hpre
    by_cases hg : (!SPECIAL_CONST_P op1 && (ext.classOf op1 == ext.cArray)
        && (!ext.mjit_bop_redefined_p || ext.basic_op_unredefined_p .aref .array)
        && FIXNUM_P op2) = true
    · have hq : ¬ FIX2ULONG (rvWord op2) < ext.aryLen op1 :=
        fun hcon => hpre ⟨hg, hcon⟩
      simp only [aind_f, hg, if_true]
      rw [if_neg hq]
    · simp only [aind_f]
      rw [if_neg hg]

/-- C2 witness: the failure paths at concrete inputs — a non-fixnum
(heap) first operand for the arithmetic and comparison handlers, and an
out-of-range index for `aind` (the sample environment has every array
empty). -/
theorem c2_spec_failure_writes_nothing_witness :
    do_spec_fix_arithm sampleExt (.big 5) (.val 3) .plus spec_fix_num_plus
        false 7 = ⟨none, some 7, true⟩
    ∧ do_spec_fix_cmp sampleExt (.big 5) (.val 3) .eq fix_num_eq
        false 9 = ⟨none, some 9, true⟩
    ∧ aind_f sampleExt (.val 16) (.val 3) = ⟨none, some uindInsn, true⟩ :=
  ⟨c2_spec_failure_writes_nothing.1 sampleExt (.big 5) (.val 3) .plus
      spec_fix_num_plus false 7 (by decide),
   c2_spec_failure_writes_nothing.2.1 sampleExt (.big 5) (.val 3) .eq
      fix_num_eq false 9 (by decide),
   c2_spec_failure_writes_nothing.2.2 sampleExt (.val 16) (.val 3) (by decide)⟩

end RtlMjit

namespace RtlMjit

/-- C9 counterexample: the claim asserts that every allocation failure
leaves no partially-installed register bytecode; but when the
insns-info-table allocation fails (everything earlier having succeeded),
`rtl_gen` returns `FALSE` with the register stream already installed in
the iseq body (`rtl_encoded`, `rtl_size`, `temp_vars_num` are set and
patched before `create_rtl_insn_info_table` runs). -/
theorem c9_counterexample :
    (rtl_gen ⟨true, true, true, false, true, true, true⟩).ret = false
    ∧ (rtl_gen ⟨true, true, true, false, true, true, true⟩).rtl_installed = true := by
  decide

/-- C9 (amended): every allocation failure escapes through its designated
path (the `varr_malloc_failure` long-jump to `rtl_gen_jump_buf`, or a
NULL check at a table allocation) and makes `rtl_gen` return `FALSE`;
failures up to and including the register-stream allocation leave no
register bytecode installed, but a later failure (insns-info or
catch-table construction) returns `FALSE` with the register stream
already installed in the iseq body. -/
theorem c9_alloc_failure_returns_false (o : GenOracle) :
    (¬(o.cd_ok = true ∧ o.varr_ok = true ∧ o.rtl_alloc_ok = true
        ∧ o.info_entries_ok = true ∧ o.info_positions_ok = true
        ∧ (o.catch_present = true → o.catch_ok = true)) →
      (rtl_gen o).ret = false)
    ∧ ((o.cd_ok = false ∨ o.varr_ok = false ∨ o.rtl_alloc_ok = false) →
      (rtl_gen o).rtl_installed = false
      ∧ (rtl_gen o).info_installed = false
      ∧ (rtl_gen o).catch_installed = false) := by
  obtain ⟨c, v, r, ie, ip, cp, co⟩ := o
  cases c <;> cases v <;> cases r <;> cases ie <;> cases ip <;> cases cp <;> cases co
    <;> exact ⟨fun h1 => by revert h1; decide, fun h2 => by revert h2; decide⟩

/-- C9 witness: the amended statement at an oracle whose call-data
allocation fails: `rtl_gen` returns `FALSE` and nothing is installed. -/
theorem c9_alloc_failure_returns_false_witness :
    (¬((false = true) ∧ true = true ∧ true = true ∧ true = true ∧ true = true
        ∧ ((true : Bool) = true → true = true)) →
      (rtl_gen ⟨false, true, true, true, true, true, true⟩).ret = false)
    ∧ ((false = false ∨ (true : Bool) = false ∨ (true : Bool) = false) →
      (rtl_gen ⟨false, true, true, true, true, true, true⟩).rtl_installed = false
      ∧ (rtl_gen ⟨false, true, true, true, true, true, true⟩).info_installed = false
      ∧ (rtl_gen ⟨false, true, true, true, true, true, true⟩).catch_installed = false) :=
  c9_alloc_failure_returns_false ⟨false, true, true, true, true, true, true⟩

end RtlMjit

namespace RtlMjit

theorem TWF_push_slot {slot : TSlot} {s : TState} (h : TWF s)
    (hs : slot.mode = .temp → slot.temp = -((s.stack.length : Int) + 1)) :
    TWF (push_stack_slot slot s) := by
  obtain ⟨h1, h2⟩ := h
  constructor
  · intro i hi
    simp only [push_stack_slot, List.get_eq_getElem] at hi ⊢
    have hi2 : i < s.stack.length + 1 := by
      simpa using hi
    by_cases hlt : i < s.stack.length
    · rw [List.getElem_append_left hlt]
      intro hm
      have := h1 i hlt
      simp only [List.get_eq_getElem] at this
      exact this hm
    · have hieq : i = s.stack.length := by omega
      rw [List.getElem_concat_length _ _ _ hieq]
      intro hm
      rw [hs hm, hieq]
  · simp only [push_stack_slot, List.length_append, List.length_cons, List.length_nil]
    split <;> omega

theorem TWF_push_val {s : TState} (m : SlotMode) (pos : Nat) (h : TWF s) :
    TWF (push_val m pos s) := by
  apply TWF_push_slot h
  intro hm
  have hm2 : m = SlotMode.temp := hm
  simp [hm2]

theorem TWF_change_slot {s : TState} {n : Nat} {slot : TSlot} (h : TWF s)
    (hn : n < s.stack.length)
    (hs : slot.mode = .temp → slot.temp = -((n : Int) + 1)) :
    TWF (change_stack_slot n slot s) := by
  obtain ⟨h1, h2⟩ := h
  constructor
  · intro i hi
    simp only [change_stack_slot, List.get_eq_getElem] at hi ⊢
    have hi2 : i < s.stack.length := by simpa using hi
    by_cases hieq : i = n
    · subst hieq
      rw [List.getElem_set_self]
      intro hm
      exact hs hm
    · rw [List.getElem_set_ne (fun hcon => hieq hcon.symm)]
      intro hm
      have := h1 i hi2
      simp only [List.get_eq_getElem] at this
      exact this hm
  · simpa [change_stack_slot] using h2

end RtlMjit

namespace RtlMjit

theorem TWF_new_top {s : TState} (pos : Nat) (h : TWF s) :
    TWF (new_top_stack_temp_var pos s).2
    ∧ (new_top_stack_temp_var pos s).1 = -((s.stack.length : Int) + 1)
    ∧ (new_top_stack_temp_var pos s).1.natAbs
        ≤ (new_top_stack_temp_var pos s).2.max_stack_depth := by
  have hwf : TWF (push_temp_result pos (-((s.stack.length : Int) + 1)) s) := by
    apply TWF_push_slot h
    intro _
    rfl
  refine ⟨hwf, rfl, ?_⟩
  have hlen : (push_temp_result pos (-((s.stack.length : Int) + 1)) s).stack.length
      = s.stack.length + 1 := by
    simp [push_temp_result, push_stack_slot]
  have h2 := hwf.2
  rw [hlen] at h2
  simp only [new_top_stack_temp_var]
  omega

theorem TWF_dup {s : TState} (b : Bool) (pos : Nat) (h : TWF s) :
    TWF (dup_insn b pos s) := by
  unfold dup_insn
  cases hgl : s.stack.getLast? with
  | none => exact h
  | some slot =>
    split
    · exact h
    · rename_i sl hc
      split
      · exact TWF_push_val _ _ h
      · rename_i hc2
        apply TWF_push_slot h
        intro hm
        exact absurd (by simp [hm]) hc2

theorem TWF_topn {s : TState} (b : Bool) (n pos : Nat) (h : TWF s) :
    TWF (topn_insn b n pos s) := by
  unfold topn_insn
  cases hgl : s.stack.get? (s.stack.length - n - 1) with
  | none => exact h
  | some slot =>
    split
    · exact h
    · rename_i sl hc
      split
      · exact TWF_push_val _ _ h
      · rename_i hc2
        apply TWF_push_slot h
        intro hm
        exact absurd (by simp [hm]) hc2

theorem TWF_setn {s : TState} (n : Nat) (h : TWF s) (hn : n < s.stack.length) :
    TWF (setn_insn n s) := by
  simp only [setn_insn]
  cases hgl : s.stack.getLast? with
  | none => exact h
  | some slot =>
    apply TWF_change_slot h (by omega)
    intro hm
    by_cases hmode : slot.mode = SlotMode.temp
    · rw [if_pos hmode]
      show (n : Int) - (s.stack.length : Int) = _
      omega
    · rw [if_neg hmode] at hm
      exact absurd hm hmode

theorem TWF_swap {s : TState} (h : TWF s) (hlen2 : 2 ≤ s.stack.length) :
    TWF (swap_insn s) := by
  simp only [swap_insn]
  cases h1 : s.stack.get? (s.stack.length - 1) with
  | none => exact h
  | some slot =>
    cases h2 : s.stack.get? (s.stack.length - 2) with
    | none => exact h
    | some slot2 =>
      have hlen : s.stack.length - 1 < s.stack.length := (List.get?_eq_some.mp h1).1
      have hin2 : s.stack.length - 2 < s.stack.length := by omega
      apply TWF_change_slot
      · apply TWF_change_slot h hin2
        intro hm
        by_cases hmode : slot.mode = SlotMode.temp
        · rw [if_pos hmode]
          show -(s.stack.length : Int) + 1 = _
          omega
        · rw [if_neg hmode] at hm
          exact absurd hm hmode
      · simpa [change_stack_slot] using hlen
      · intro hm
        by_cases hmode : slot2.mode = SlotMode.temp
        · rw [if_pos hmode]
          show -(s.stack.length : Int) = _
          omega
        · rw [if_neg hmode] at hm
          exact absurd hm hmode

theorem TWF_reverse {s : TState} (pos : Nat) :
    ∀ n, TWF s → n ≤ s.stack.length → TWF (reverse_insn pos s n) := by
  intro n
  induction n generalizing s with
  | zero =>
    intro h _
    exact h
  | succ m ih =>
    intro h hle
    show TWF (reverse_insn pos
      (change_stack_slot (s.stack.length - m - 1)
        ⟨.temp, pos, (m : Int) - (s.stack.length : Int)⟩ s) m)
    apply ih
    · apply TWF_change_slot h (by omega)
      intro _
      show (m : Int) - (s.stack.length : Int) = _
      omega
    · show m ≤ (s.stack.set _ _).length
      rw [List.length_set]
      omega

theorem TWF_pop {s : TState} (h : TWF s) : TWF (pop_stack_slot s) := by
  obtain ⟨h1, h2⟩ := h
  constructor
  · intro i hi
    simp only [pop_stack_slot, List.get_eq_getElem] at hi ⊢
    have hi2 : i < s.stack.dropLast.length := by simpa using hi
    rw [List.getElem_dropLast]
    intro hm
    have hi3 : i < s.stack.length := by
      simp only [List.length_dropLast] at hi2
      omega
    have := h1 i hi3
    simp only [List.get_eq_getElem] at this
    exact this hm
  · have hd : s.stack.dropLast.length ≤ s.stack.length := by
      simp [List.length_dropLast]
    exact le_trans hd h2

end RtlMjit

namespace RtlMjit

/-- C10: throughout the generator, every emulated-VM-stack slot of kind
`TEMP` at zero-based depth `i` denotes temporary-register index
`-(i+1)`: every operation that pushes (`push_val`, `push_temp_result`,
`new_top_stack_temp_var`), duplicates (`dup`, `topn`), rewrites (`setn`,
`reverse`), swaps (`swap`) or pops slots preserves this correspondence,
`new_top_stack_temp_var` emits exactly index `-(len+1)` for the new top,
and its magnitude never exceeds the recorded maximum register depth
`max_stack_depth`. -/
theorem c10_temp_index_invariant :
    (∀ (s : TState) (m : SlotMode) (pos : Nat), TWF s → TWF (push_val m pos s))
    ∧ (∀ (s : TState) (pos : Nat) (res : Int), TWF s →
        res = -((s.stack.length : Int) + 1) → TWF (push_temp_result pos res s))
    ∧ (∀ (s : TState) (pos : Nat), TWF s →
        TWF (new_top_stack_temp_var pos s).2
        ∧ (new_top_stack_temp_var pos s).1 = -((s.stack.length : Int) + 1)
        ∧ (new_top_stack_temp_var pos s).1.natAbs
            ≤ (new_top_stack_temp_var pos s).2.max_stack_depth)
    ∧ (∀ (s : TState) (b : Bool) (pos : Nat), TWF s → TWF (dup_insn b pos s))
    ∧ (∀ (s : TState) (b : Bool) (n pos : Nat), TWF s → TWF (topn_insn b n pos s))
    ∧ (∀ (s : TState) (n : Nat), TWF s → n < s.stack.length → TWF (setn_insn n s))
    ∧ (∀ (s : TState), TWF s → 2 ≤ s.stack.length → TWF (swap_insn s))
    ∧ (∀ (s : TState) (pos n : Nat), TWF s → n ≤ s.stack.length →
        TWF (reverse_insn pos s n))
    ∧ (∀ (s : TState), TWF s → TWF (pop_stack_slot s)) := by
  refine ⟨?_, ?_, ?_, ?_, ?_, ?_, ?_, ?_, ?_⟩
  · intro s m pos h
    exact TWF_push_val m pos h
  · intro s pos res h hres
    apply TWF_push_slot h
    intro _
    exact hres
  · intro s pos h
    exact TWF_new_top pos h
  · intro s b pos h
    exact TWF_dup b pos h
  · intro s b n pos h
    exact TWF_topn b n pos h
  · intro s n h hn
    exact TWF_setn n h hn
  · intro s h h2
    exact TWF_swap h h2
  · intro s pos n h hn
    exact TWF_reverse pos n h hn
  · intro s h
    exact TWF_pop h

/-- C10 witness: the invariant exercised on a concrete two-slot stack
(one value slot, one fresh temporary). -/
theorem c10_temp_index_invariant_witness :
    TWF (new_top_stack_temp_var 4 ⟨[⟨.val 9, 0, 0⟩], 1⟩).2
    ∧ (new_top_stack_temp_var 4 ⟨[⟨.val 9, 0, 0⟩], 1⟩).1
        = -(((([⟨.val 9, 0, 0⟩] : List TSlot).length : Int)) + 1)
    ∧ (new_top_stack_temp_var 4 ⟨[⟨.val 9, 0, 0⟩], 1⟩).1.natAbs
        ≤ (new_top_stack_temp_var 4 ⟨[⟨.val 9, 0, 0⟩], 1⟩).2.max_stack_depth :=
  c10_temp_index_invariant.2.2.1 ⟨[⟨.val 9, 0, 0⟩], 1⟩ 4
    ⟨fun i hi => by
        have h0 : i = 0 := by
          simp only [List.length_cons, List.length_nil] at hi
          omega
        subst h0
        intro hm
        exact absurd
          (show (⟨SlotMode.val 9, 0, 0⟩ : TSlot).mode = SlotMode.temp from hm)
          (by decide)
      , by decide⟩

end RtlMjit

namespace RtlMjit

theorem slotRank_le_two (m : SlotMode) : slotRank m ≤ 2 := by
  cases m <;> simp [slotRank]

theorem slotRank_pos_of_ne_any {m : SlotMode} (h : m ≠ .any) : 1 ≤ slotRank m := by
  cases m <;> simp [slotRank] at h ⊢

theorem slotRank_mid {m : SlotMode} (h1 : m ≠ .any) (h2 : m ≠ .temp) :
    slotRank m = 1 := by
  cases m <;> simp [slotRank] at h1 h2 ⊢

theorem updateSlot_marks_mono (sv st : StackSlot) (marks : Finset Nat) :
    marks ⊆ (updateSlot sv st marks).2.2.1 := by
  simp only [updateSlot]
  split_ifs
  all_goals first
    | exact Finset.Subset.refl _
    | exact Finset.subset_insert _ _

theorem updateSlot_cases (sv st : StackSlot) (marks : Finset Nat) :
    (st.mode = .any ∧ updateSlot sv st marks = (sv, st, marks, false, false))
    ∨ (st.mode ≠ .any ∧ sv.mode = .any
        ∧ updateSlot sv st marks = (st, st, marks, true, false))
    ∨ (st.mode ≠ .any ∧ sv.mode ≠ .any ∧ stack_slot_eq sv st = true
        ∧ updateSlot sv st marks = (sv, st, marks, false, false))
    ∨ (st.mode ≠ .any ∧ sv.mode ≠ .any ∧ stack_slot_eq sv st = false
        ∧ sv.mode ≠ .temp
        ∧ updateSlot sv st marks
            = (⟨.temp, sv.source_insn_pos⟩, ⟨.temp, sv.source_insn_pos⟩,
                insert sv.source_insn_pos marks, true, false))
    ∨ (st.mode ≠ .any ∧ sv.mode ≠ .any ∧ stack_slot_eq sv st = false
        ∧ sv.mode = .temp ∧ st.mode ≠ .temp
        ∧ updateSlot sv st marks
            = (⟨.temp, sv.source_insn_pos⟩, ⟨.temp, sv.source_insn_pos⟩,
                insert st.source_insn_pos marks, true,
                decide (st.source_insn_pos ∈ marks)))
    ∨ (st.mode ≠ .any ∧ sv.mode ≠ .any ∧ stack_slot_eq sv st = false
        ∧ sv.mode = .temp ∧ st.mode = .temp
        ∧ updateSlot sv st marks
            = (⟨.temp, sv.source_insn_pos⟩, ⟨.temp, sv.source_insn_pos⟩,
                marks, false, false)) := by
  by_cases h1 : st.mode = .any
  · exact Or.inl ⟨h1, by simp only [updateSlot, if_pos h1]⟩
  · by_cases h2 : sv.mode = .any
    · exact Or.inr (Or.inl ⟨h1, h2, by
        simp only [updateSlot]
        rw [if_neg h1, if_pos h2]⟩)
    · by_cases h3 : stack_slot_eq sv st = true
      · exact Or.inr (Or.inr (Or.inl ⟨h1, h2, h3, by
          simp only [updateSlot]
          rw [if_neg h1, if_neg h2, if_neg (by simp [h3])]⟩))
      · have h3f : stack_slot_eq sv st = false := by
          simpa using h3
        by_cases h4 : sv.mode = .temp
        · by_cases h5 : st.mode = .temp
          · refine Or.inr (Or.inr (Or.inr (Or.inr (Or.inr ⟨h1, h2, h3f, h4, h5, ?_⟩))))
            simp only [updateSlot]
            rw [if_neg h1, if_neg h2, if_pos (by simp [h3f]),
              if_neg (by simp [h4]), if_neg (by simp [h5])]
          · refine Or.inr (Or.inr (Or.inr (Or.inr (Or.inl ⟨h1, h2, h3f, h4, h5, ?_⟩))))
            simp only [updateSlot]
            rw [if_neg h1, if_neg h2, if_pos (by simp [h3f]),
              if_neg (by simp [h4]), if_pos h5]
        · refine Or.inr (Or.inr (Or.inr (Or.inl ⟨h1, h2, h3f, h4, ?_⟩)))
          simp only [updateSlot]
          rw [if_neg h1, if_neg h2, if_pos (by simp [h3f]), if_pos h4]

theorem updateSlot_rank_mono (sv st : StackSlot) (marks : Finset Nat) :
    slotRank sv.mode ≤ slotRank (updateSlot sv st marks).1.mode := by
  rcases updateSlot_cases sv st marks with ⟨h1, heq⟩ | ⟨h1, h2, heq⟩
    | ⟨h1, h2, h3, heq⟩ | ⟨h1, h2, h3, h4, heq⟩
    | ⟨h1, h2, h3, h4, h5, heq⟩ | ⟨h1, h2, h3, h4, h5, heq⟩ <;> rw [heq]
  · rw [h2]
    exact Nat.zero_le _
  · exact slotRank_le_two sv.mode
  · exact slotRank_le_two sv.mode
  · exact slotRank_le_two sv.mode

theorem updateSlot_temp_preserved {sv : StackSlot} (st : StackSlot)
    (marks : Finset Nat) (h : sv.mode = .temp) :
    (updateSlot sv st marks).1.mode = .temp := by
  rcases updateSlot_cases sv st marks with ⟨h1, heq⟩ | ⟨h1, h2, heq⟩
    | ⟨h1, h2, h3, heq⟩ | ⟨h1, h2, h3, h4, heq⟩
    | ⟨h1, h2, h3, h4, h5, heq⟩ | ⟨h1, h2, h3, h4, h5, heq⟩ <;> rw [heq]
  · exact h
  · rw [h] at h2
    exact SlotMode.noConfusion h2
  · exact h

theorem updateSlot_strict (sv st : StackSlot) (marks : Finset Nat)
    (hch : (updateSlot sv st marks).2.2.2.1 = true)
    (hst : (updateSlot sv st marks).2.2.2.2 = false) :
    slotRank sv.mode + marks.card
      < slotRank (updateSlot sv st marks).1.mode
        + (updateSlot sv st marks).2.2.1.card := by
  rcases updateSlot_cases sv st marks with ⟨h1, heq⟩ | ⟨h1, h2, heq⟩
    | ⟨h1, h2, h3, heq⟩ | ⟨h1, h2, h3, h4, heq⟩
    | ⟨h1, h2, h3, h4, h5, heq⟩ | ⟨h1, h2, h3, h4, h5, heq⟩ <;> rw [heq] at hch hst ⊢
  · simp at hch
  · rw [h2]
    show slotRank SlotMode.any + marks.card < slotRank st.mode + marks.card
    have hpos := slotRank_pos_of_ne_any h1
    have e0 : slotRank SlotMode.any = 0 := rfl
    omega
  · simp at hch
  · have hr1 : slotRank sv.mode = 1 := slotRank_mid h2 h4
    have hc1 : marks.card ≤ (insert sv.source_insn_pos marks).card :=
      Finset.card_le_card (Finset.subset_insert _ _)
    show slotRank sv.mode + marks.card
      < 2 + (insert sv.source_insn_pos marks).card
    omega
  · have hnot : st.source_insn_pos ∉ marks := of_decide_eq_false hst
    have hcard : (insert st.source_insn_pos marks).card = marks.card + 1 :=
      Finset.card_insert_of_not_mem hnot
    show slotRank sv.mode + marks.card
      < 2 + (insert st.source_insn_pos marks).card
    rw [h4]
    have e2 : slotRank SlotMode.temp = 2 := rfl
    omega
  · simp at hch

end RtlMjit

namespace RtlMjit

/-- On a disagreeing pair whose saved side is a concrete (non-`temp`,
non-`any`) descriptor, `updateSlot` forces both sides to `temp`, marks the
saved side's producer, and reports a change (`rtl_gen.c:508-524`). -/
theorem updateSlot_force (sv st : StackSlot) (marks : Finset Nat)
    (h1 : st.mode ≠ .any) (h2 : sv.mode ≠ .any)
    (h3 : stack_slot_eq sv st = false) (h4 : sv.mode ≠ .temp) :
    updateSlot sv st marks
      = (⟨.temp, sv.source_insn_pos⟩, ⟨.temp, sv.source_insn_pos⟩,
          insert sv.source_insn_pos marks, true, false) := by
  rcases updateSlot_cases sv st marks with ⟨g1, heq⟩ | ⟨g1, g2, heq⟩
    | ⟨g1, g2, g3, heq⟩ | ⟨g1, g2, g3, g4, heq⟩
    | ⟨g1, g2, g3, g4, g5, heq⟩ | ⟨g1, g2, g3, g4, g5, heq⟩
  · exact absurd g1 h1
  · exact absurd g2 h2
  · rw [g3] at h3
    exact Bool.noConfusion h3
  · exact heq
  · exact absurd g4 h4
  · exact absurd g4 h4

/-- On a pair whose saved side is already `temp` but whose incoming side
is a concrete descriptor, `updateSlot` marks the incoming side's producer
(`rtl_gen.c:516-519`, the `else` arm of the `TEMP` test). -/
theorem updateSlot_mark_incoming (sv st : StackSlot) (marks : Finset Nat)
    (h1 : st.mode ≠ .any) (h4 : sv.mode = .temp) (h5 : st.mode ≠ .temp) :
    updateSlot sv st marks
      = (⟨.temp, sv.source_insn_pos⟩, ⟨.temp, sv.source_insn_pos⟩,
          insert st.source_insn_pos marks, true,
          decide (st.source_insn_pos ∈ marks)) := by
  rcases updateSlot_cases sv st marks with ⟨g1, heq⟩ | ⟨g1, g2, heq⟩
    | ⟨g1, g2, g3, heq⟩ | ⟨g1, g2, g3, g4, heq⟩
    | ⟨g1, g2, g3, g4, g5, heq⟩ | ⟨g1, g2, g3, g4, g5, heq⟩
  · exact absurd g1 h1
  · rw [h4] at g2
    exact SlotMode.noConfusion g2
  · have hmm : sv.mode = st.mode := by
      simpa [stack_slot_eq] using g3
    rw [h4] at hmm
    exact absurd hmm.symm h5
  · exact absurd h4 g4
  · exact heq
  · exact absurd g5 h5

/-- Producer positions and marks stay within program bounds through one
`updateSlot` step. -/
theorem updateSlot_bound (size : Nat) (sv st : StackSlot) (marks : Finset Nat)
    (h1 : sv.source_insn_pos < size) (h2 : st.source_insn_pos < size)
    (h3 : marks ⊆ Finset.range size) :
    (updateSlot sv st marks).1.source_insn_pos < size
      ∧ (updateSlot sv st marks).2.2.1 ⊆ Finset.range size := by
  rcases updateSlot_cases sv st marks with ⟨g1, heq⟩ | ⟨g1, g2, heq⟩
    | ⟨g1, g2, g3, heq⟩ | ⟨g1, g2, g3, g4, heq⟩
    | ⟨g1, g2, g3, g4, g5, heq⟩ | ⟨g1, g2, g3, g4, g5, heq⟩ <;> rw [heq]
  · exact ⟨h1, h3⟩
  · exact ⟨h2, h3⟩
  · exact ⟨h1, h3⟩
  · exact ⟨h1, Finset.insert_subset (Finset.mem_range.mpr h1) h3⟩
  · exact ⟨h1, Finset.insert_subset (Finset.mem_range.mpr h2) h3⟩
  · exact ⟨h1, h3⟩

/-- `update_saved_stack_slots` keeps the length of the saved state. -/
theorem usss_saved_length (saved : List StackSlot) :
    ∀ (stack : List StackSlot) (marks : Finset Nat),
    (update_saved_stack_slots saved stack marks).saved.length = saved.length := by
  induction saved with
  | nil =>
    intro stack marks
    cases stack <;> rfl
  | cons sv svs ih =>
    intro stack marks
    cases stack with
    | nil => rfl
    | cons st sts =>
      show ((updateSlot sv st marks).1
          :: (update_saved_stack_slots svs sts
              ((updateSlot sv st marks).2.2.1)).saved).length = svs.length + 1
      rw [List.length_cons, ih]

/-- The mark map only grows across `update_saved_stack_slots`. -/
theorem usss_marks_mono (saved : List StackSlot) :
    ∀ (stack : List StackSlot) (marks : Finset Nat),
    marks ⊆ (update_saved_stack_slots saved stack marks).marks := by
  induction saved with
  | nil =>
    intro stack marks
    cases stack <;> exact Finset.Subset.refl _
  | cons sv svs ih =>
    intro stack marks
    cases stack with
    | nil => exact Finset.Subset.refl _
    | cons st sts =>
      show marks ⊆ (update_saved_stack_slots svs sts
          ((updateSlot sv st marks).2.2.1)).marks
      exact Finset.Subset.trans (updateSlot_marks_mono sv st marks) (ih sts _)

/-- The termination measure contribution of one label never decreases
across `update_saved_stack_slots`. -/
theorem usss_measure_mono (saved : List StackSlot) :
    ∀ (stack : List StackSlot) (marks : Finset Nat),
    stateRank saved + marks.card
      ≤ stateRank (update_saved_stack_slots saved stack marks).saved
        + (update_saved_stack_slots saved stack marks).marks.card := by
  induction saved with
  | nil =>
    intro stack marks
    cases stack <;> exact Nat.le.refl
  | cons sv svs ih =>
    intro stack marks
    cases stack with
    | nil => exact Nat.le.refl
    | cons st sts =>
      have hhead := updateSlot_rank_mono sv st marks
      have hm := Finset.card_le_card (updateSlot_marks_mono sv st marks)
      have htail := ih sts ((updateSlot sv st marks).2.2.1)
      have hexp : stateRank ((update_saved_stack_slots (sv :: svs) (st :: sts) marks).saved)
          = slotRank ((updateSlot sv st marks).1.mode)
            + stateRank ((update_saved_stack_slots svs sts
                ((updateSlot sv st marks).2.2.1)).saved) := rfl
      have hexp2 : (update_saved_stack_slots (sv :: svs) (st :: sts) marks).marks
          = (update_saved_stack_slots svs sts ((updateSlot sv st marks).2.2.1)).marks := rfl
      have hexp3 : stateRank (sv :: svs) = slotRank sv.mode + stateRank svs := rfl
      rw [hexp, hexp2, hexp3]
      omega

/-- A changing, non-stale `update_saved_stack_slots` call strictly
increases the label's measure contribution. -/
theorem usss_measure_strict (saved : List StackSlot) :
    ∀ (stack : List StackSlot) (marks : Finset Nat),
    (update_saved_stack_slots saved stack marks).changed = true →
    (update_saved_stack_slots saved stack marks).stale = false →
    stateRank saved + marks.card
      < stateRank (update_saved_stack_slots saved stack marks).saved
        + (update_saved_stack_slots saved stack marks).marks.card := by
  induction saved with
  | nil =>
    intro stack marks hch _
    cases stack <;> simp [update_saved_stack_slots] at hch
  | cons sv svs ih =>
    intro stack marks hch hst
    cases stack with
    | nil => simp [update_saved_stack_slots] at hch
    | cons st sts =>
      have hchexp : (update_saved_stack_slots (sv :: svs) (st :: sts) marks).changed
          = ((updateSlot sv st marks).2.2.2.1
              || (update_saved_stack_slots svs sts
                  ((updateSlot sv st marks).2.2.1)).changed) := rfl
      have hstexp : (update_saved_stack_slots (sv :: svs) (st :: sts) marks).stale
          = ((updateSlot sv st marks).2.2.2.2
              || (update_saved_stack_slots svs sts
                  ((updateSlot sv st marks).2.2.1)).stale) := rfl
      rw [hchexp] at hch
      rw [hstexp] at hst
      simp only [Bool.or_eq_true] at hch
      obtain ⟨hst1, hst2⟩ := Bool.or_eq_false_iff.mp hst
      have hexp : stateRank ((update_saved_stack_slots (sv :: svs) (st :: sts) marks).saved)
          = slotRank ((updateSlot sv st marks).1.mode)
            + stateRank ((update_saved_stack_slots svs sts
                ((updateSlot sv st marks).2.2.1)).saved) := rfl
      have hexp2 : (update_saved_stack_slots (sv :: svs) (st :: sts) marks).marks
          = (update_saved_stack_slots svs sts ((updateSlot sv st marks).2.2.1)).marks := rfl
      have hexp3 : stateRank (sv :: svs) = slotRank sv.mode + stateRank svs := rfl
      rw [hexp, hexp2, hexp3]
      cases hch with
      | inl h =>
        have hhead := updateSlot_strict sv st marks h hst1
        have htail := usss_measure_mono svs sts ((updateSlot sv st marks).2.2.1)
        omega
      | inr h =>
        have hhead1 := updateSlot_rank_mono sv st marks
        have hhead2 := Finset.card_le_card (updateSlot_marks_mono sv st marks)
        have htail := ih sts ((updateSlot sv st marks).2.2.1) h hst2
        omega

end RtlMjit

namespace RtlMjit

/-- A saved slot already forced to `temp` is never retracted by
`update_saved_stack_slots`. -/
theorem usss_temp_preserved (saved : List StackSlot) :
    ∀ (stack : List StackSlot) (marks : Finset Nat) (j : Nat) (sl : StackSlot),
    saved[j]? = some sl → sl.mode = .temp →
    ∃ sl2, (update_saved_stack_slots saved stack marks).saved[j]? = some sl2
      ∧ sl2.mode = .temp := by
  induction saved with
  | nil =>
    intro stack marks j sl h _
    simp at h
  | cons sv svs ih =>
    intro stack marks j sl h hm
    cases stack with
    | nil => exact ⟨sl, h, hm⟩
    | cons st sts =>
      have hcons : (update_saved_stack_slots (sv :: svs) (st :: sts) marks).saved
          = (updateSlot sv st marks).1
            :: (update_saved_stack_slots svs sts
                ((updateSlot sv st marks).2.2.1)).saved := rfl
      cases j with
      | zero =>
        have hsv : sv = sl := by simpa using h
        refine ⟨(updateSlot sv st marks).1, ?_, ?_⟩
        · rw [hcons]
          simp
        · exact updateSlot_temp_preserved st marks (by rw [hsv]; exact hm)
      | succ n =>
        have h2 : svs[n]? = some sl := by simpa using h
        obtain ⟨sl2, hget, hmode⟩ := ih sts ((updateSlot sv st marks).2.2.1) n sl h2 hm
        refine ⟨sl2, ?_, hmode⟩
        rw [hcons]
        simpa using hget

/-- Producer positions in the updated saved state and the updated marks
stay within program bounds. -/
theorem usss_bound (size : Nat) (saved : List StackSlot) :
    ∀ (stack : List StackSlot) (marks : Finset Nat),
    slotsBounded size saved → slotsBounded size stack → marks ⊆ Finset.range size →
    slotsBounded size (update_saved_stack_slots saved stack marks).saved
      ∧ (update_saved_stack_slots saved stack marks).marks ⊆ Finset.range size := by
  induction saved with
  | nil =>
    intro stack marks hs _ hm
    cases stack with
    | nil => exact ⟨hs, hm⟩
    | cons st sts => exact ⟨hs, hm⟩
  | cons sv svs ih =>
    intro stack marks hs ht hm
    cases stack with
    | nil => exact ⟨hs, hm⟩
    | cons st sts =>
      have hsv : sv.source_insn_pos < size := hs sv (List.mem_cons_self _ _)
      have hst : st.source_insn_pos < size := ht st (List.mem_cons_self _ _)
      have hb := updateSlot_bound size sv st marks hsv hst hm
      have hsvs : slotsBounded size svs := fun x hx => hs x (List.mem_cons_of_mem _ hx)
      have hsts : slotsBounded size sts := fun x hx => ht x (List.mem_cons_of_mem _ hx)
      obtain ⟨hrec1, hrec2⟩ := ih sts ((updateSlot sv st marks).2.2.1) hsvs hsts hb.2
      have hcons : (update_saved_stack_slots (sv :: svs) (st :: sts) marks).saved
          = (updateSlot sv st marks).1
            :: (update_saved_stack_slots svs sts
                ((updateSlot sv st marks).2.2.1)).saved := rfl
      constructor
      · intro x hx
        rw [hcons] at hx
        rcases List.mem_cons.mp hx with hx1 | hx2
        · rw [hx1]
          exact hb.1
        · exact hrec1 x hx2
      · exact hrec2

/-- A disagreeing pair whose saved side is a concrete descriptor is
forced: the producer of the saved side is marked, both the saved slot and
the in-flight stack slot become `temp`, and the pass reports a change. -/
theorem usss_forces (saved : List StackSlot) :
    ∀ (stack : List StackSlot) (marks : Finset Nat) (i : Nat) (sv st : StackSlot),
    saved[i]? = some sv → stack[i]? = some st →
    st.mode ≠ .any → sv.mode ≠ .any → stack_slot_eq sv st = false → sv.mode ≠ .temp →
    sv.source_insn_pos ∈ (update_saved_stack_slots saved stack marks).marks
      ∧ (update_saved_stack_slots saved stack marks).saved[i]?
          = some (⟨.temp, sv.source_insn_pos⟩ : StackSlot)
      ∧ (update_saved_stack_slots saved stack marks).stack[i]?
          = some (⟨.temp, sv.source_insn_pos⟩ : StackSlot)
      ∧ (update_saved_stack_slots saved stack marks).changed = true := by
  induction saved with
  | nil =>
    intro stack marks i sv st h
    simp at h
  | cons sv0 svs ih =>
    intro stack marks i sv st hsv hst h1 h2 h3 h4
    cases stack with
    | nil => simp at hst
    | cons st0 sts =>
      have hcons_s : (update_saved_stack_slots (sv0 :: svs) (st0 :: sts) marks).saved
          = (updateSlot sv0 st0 marks).1
            :: (update_saved_stack_slots svs sts
                ((updateSlot sv0 st0 marks).2.2.1)).saved := rfl
      have hcons_t : (update_saved_stack_slots (sv0 :: svs) (st0 :: sts) marks).stack
          = (updateSlot sv0 st0 marks).2.1
            :: (update_saved_stack_slots svs sts
                ((updateSlot sv0 st0 marks).2.2.1)).stack := rfl
      have hcons_m : (update_saved_stack_slots (sv0 :: svs) (st0 :: sts) marks).marks
          = (update_saved_stack_slots svs sts
              ((updateSlot sv0 st0 marks).2.2.1)).marks := rfl
      have hcons_c : (update_saved_stack_slots (sv0 :: svs) (st0 :: sts) marks).changed
          = ((updateSlot sv0 st0 marks).2.2.2.1
              || (update_saved_stack_slots svs sts
                  ((updateSlot sv0 st0 marks).2.2.1)).changed) := rfl
      cases i with
      | zero =>
        have e1 : sv0 = sv := by simpa using hsv
        have e2 : st0 = st := by simpa using hst
        subst e1
        subst e2
        have hforce := updateSlot_force sv0 st0 marks h1 h2 h3 h4
        refine ⟨?_, ?_, ?_, ?_⟩
        · rw [hcons_m]
          refine usss_marks_mono svs sts ((updateSlot sv0 st0 marks).2.2.1) ?_
          rw [hforce]
          exact Finset.mem_insert_self _ _
        · rw [hcons_s, hforce]
          simp
        · rw [hcons_t, hforce]
          simp
        · rw [hcons_c, hforce]
          rfl
      | succ n =>
        have hsv2 : svs[n]? = some sv := by simpa using hsv
        have hst2 : sts[n]? = some st := by simpa using hst
        obtain ⟨ha, hb2, hc, hd⟩ :=
          ih sts ((updateSlot sv0 st0 marks).2.2.1) n sv st hsv2 hst2 h1 h2 h3 h4
        refine ⟨?_, ?_, ?_, ?_⟩
        · rw [hcons_m]
          exact ha
        · rw [hcons_s]
          simpa using hb2
        · rw [hcons_t]
          simpa using hc
        · rw [hcons_c, hd]
          simp

/-- When the saved slot is already `temp` and the incoming slot is a
concrete descriptor, the incoming producer is marked. -/
theorem usss_marks_incoming (saved : List StackSlot) :
    ∀ (stack : List StackSlot) (marks : Finset Nat) (i : Nat) (sv st : StackSlot),
    saved[i]? = some sv → stack[i]? = some st →
    sv.mode = .temp → st.mode ≠ .temp → st.mode ≠ .any →
    st.source_insn_pos ∈ (update_saved_stack_slots saved stack marks).marks := by
  induction saved with
  | nil =>
    intro stack marks i sv st h
    simp at h
  | cons sv0 svs ih =>
    intro stack marks i sv st hsv hst h4 h5 h1
    cases stack with
    | nil => simp at hst
    | cons st0 sts =>
      have hcons_m : (update_saved_stack_slots (sv0 :: svs) (st0 :: sts) marks).marks
          = (update_saved_stack_slots svs sts
              ((updateSlot sv0 st0 marks).2.2.1)).marks := rfl
      rw [hcons_m]
      cases i with
      | zero =>
        have e1 : sv0 = sv := by simpa using hsv
        have e2 : st0 = st := by simpa using hst
        subst e1
        subst e2
        have hmark := updateSlot_mark_incoming sv0 st0 marks h1 h4 h5
        refine usss_marks_mono svs sts ((updateSlot sv0 st0 marks).2.2.1) ?_
        rw [hmark]
        exact Finset.mem_insert_self _ _
      | succ n =>
        have hsv2 : svs[n]? = some sv := by simpa using hsv
        have hst2 : sts[n]? = some st := by simpa using hst
        exact ih sts ((updateSlot sv0 st0 marks).2.2.1) n sv st hsv2 hst2 h4 h5 h1

/-- At a fixed point (`changed_p` false), every saved/incoming slot pair
either has an unset incoming side, agrees exactly, or is forced-temporary
on both sides. -/
theorem usss_stable (saved : List StackSlot) :
    ∀ (stack : List StackSlot) (marks : Finset Nat),
    (update_saved_stack_slots saved stack marks).changed = false →
    ∀ (i : Nat) (sv st : StackSlot), saved[i]? = some sv → stack[i]? = some st →
      st.mode = .any ∨ stack_slot_eq sv st = true
        ∨ (sv.mode = .temp ∧ st.mode = .temp) := by
  induction saved with
  | nil =>
    intro stack marks _ i sv st h
    simp at h
  | cons sv0 svs ih =>
    intro stack marks hch i sv st hsv hst
    cases stack with
    | nil => simp at hst
    | cons st0 sts =>
      have hcons_c : (update_saved_stack_slots (sv0 :: svs) (st0 :: sts) marks).changed
          = ((updateSlot sv0 st0 marks).2.2.2.1
              || (update_saved_stack_slots svs sts
                  ((updateSlot sv0 st0 marks).2.2.1)).changed) := rfl
      rw [hcons_c] at hch
      obtain ⟨hh, ht⟩ := Bool.or_eq_false_iff.mp hch
      cases i with
      | zero =>
        have e1 : sv0 = sv := by simpa using hsv
        have e2 : st0 = st := by simpa using hst
        subst e1
        subst e2
        rcases updateSlot_cases sv0 st0 marks with ⟨g1, heq⟩ | ⟨g1, g2, heq⟩
          | ⟨g1, g2, g3, heq⟩ | ⟨g1, g2, g3, g4, heq⟩
          | ⟨g1, g2, g3, g4, g5, heq⟩ | ⟨g1, g2, g3, g4, g5, heq⟩
        · exact Or.inl g1
        · rw [heq] at hh
          exact Bool.noConfusion hh
        · exact Or.inr (Or.inl g3)
        · rw [heq] at hh
          exact Bool.noConfusion hh
        · rw [heq] at hh
          exact Bool.noConfusion hh
        · exact Or.inr (Or.inr ⟨g4, g5⟩)
      | succ n =>
        have hsv2 : svs[n]? = some sv := by simpa using hsv
        have hst2 : sts[n]? = some st := by simpa using hst
        exact ih sts ((updateSlot sv0 st0 marks).2.2.1) ht n sv st hsv2 hst2

end RtlMjit

namespace RtlMjit

/-- Replacing one entry of the label table changes the weight sum by
exactly the difference of the entry weights. -/
theorem sum_map_set (l : List (Option (List StackSlot))) :
    ∀ (i : Nat) (v w : Option (List StackSlot)), l.get? i = some w →
    ((l.set i v).map labelWeight).sum + labelWeight w
      = (l.map labelWeight).sum + labelWeight v := by
  induction l with
  | nil =>
    intro i v w h
    simp at h
  | cons a as ih =>
    intro i v w h
    cases i with
    | zero =>
      have ha : a = w := by simpa using h
      subst ha
      simp only [List.set, List.map, List.sum_cons]
      omega
    | succ n =>
      have h2 : as.get? n = some w := by simpa using h
      have := ih n v w h2
      simp only [List.set, List.map, List.sum_cons]
      omega

/-- `process_label` never removes marks. -/
theorem processLabel_marks_mono (s : AState) (e : JoinEvent) :
    s.marks ⊆ (processLabel s e).1.marks := by
  cases hget : s.savedStates.get? e.label with
  | none =>
    simp only [processLabel, hget]
    exact Finset.Subset.refl _
  | some o =>
    cases o with
    | none =>
      simp only [processLabel, hget]
      exact Finset.Subset.refl _
    | some sv =>
      simp only [processLabel, hget]
      exact usss_marks_mono sv e.incoming s.marks

/-- `process_label` never retracts a forced-temporary saved slot. -/
theorem processLabel_temp_mono (s : AState) (e : JoinEvent) (i j : Nat)
    (l : List StackSlot) (sl : StackSlot)
    (h1 : s.savedStates.get? i = some (some l)) (h2 : l[j]? = some sl)
    (h3 : sl.mode = .temp) :
    ∃ (l2 : List StackSlot) (sl2 : StackSlot),
      (processLabel s e).1.savedStates.get? i = some (some l2)
        ∧ l2[j]? = some sl2 ∧ sl2.mode = .temp := by
  cases hget : s.savedStates.get? e.label with
  | none =>
    refine ⟨l, sl, ?_, h2, h3⟩
    simp only [processLabel, hget]
    exact h1
  | some o =>
    cases o with
    | none =>
      by_cases hei : i = e.label
      · subst hei
        rw [h1] at hget
        simp at hget
      · refine ⟨l, sl, ?_, h2, h3⟩
        simp only [processLabel, hget]
        rw [List.get?_set_ne _ _ (fun hne => hei hne.symm)]
        exact h1
    | some sv =>
      by_cases hei : i = e.label
      · subst hei
        have hlv : l = sv := by
          have hts := h1.symm.trans hget
          simpa using hts
        subst hlv
        obtain ⟨sl2, hget2, hm2⟩ := usss_temp_preserved l e.incoming s.marks j sl h2 h3
        refine ⟨(update_saved_stack_slots l e.incoming s.marks).saved, sl2, ?_, hget2, hm2⟩
        simp only [processLabel, hget]
        rw [List.get?_set_eq, hget]
        rfl
      · refine ⟨l, sl, ?_, h2, h3⟩
        simp only [processLabel, hget]
        rw [List.get?_set_ne _ _ (fun hne => hei hne.symm)]
        exact h1

/-- The analysis measure never decreases across `process_label`. -/
theorem processLabel_measure_mono (s : AState) (e : JoinEvent) :
    stateMeasure s ≤ stateMeasure (processLabel s e).1 := by
  cases hget : s.savedStates.get? e.label with
  | none =>
    simp only [processLabel, hget]
    exact Nat.le.refl
  | some o =>
    cases o with
    | none =>
      simp only [processLabel, hget, stateMeasure]
      have hsum := sum_map_set s.savedStates e.label (some e.incoming) none hget
      have h0 : labelWeight none = 0 := rfl
      have h1 : labelWeight (some e.incoming) = 1 + stateRank e.incoming := rfl
      omega
    | some sv =>
      simp only [processLabel, hget, stateMeasure]
      have hsum := sum_map_set s.savedStates e.label
        (some (update_saved_stack_slots sv e.incoming s.marks).saved) (some sv) hget
      have h1 : labelWeight (some sv) = 1 + stateRank sv := rfl
      have h2 : labelWeight (some (update_saved_stack_slots sv e.incoming s.marks).saved)
          = 1 + stateRank (update_saved_stack_slots sv e.incoming s.marks).saved := rfl
      have hmono := usss_measure_mono sv e.incoming s.marks
      omega

/-- A changing, non-stale `process_label` step strictly increases the
analysis measure. -/
theorem processLabel_measure_strict (s : AState) (e : JoinEvent)
    (hch : (processLabel s e).2.1 = true) (hst : (processLabel s e).2.2 = false) :
    stateMeasure s < stateMeasure (processLabel s e).1 := by
  cases hget : s.savedStates.get? e.label with
  | none =>
    simp only [processLabel, hget] at hch
    exact Bool.noConfusion hch
  | some o =>
    cases o with
    | none =>
      simp only [processLabel, hget, stateMeasure]
      have hsum := sum_map_set s.savedStates e.label (some e.incoming) none hget
      have h0 : labelWeight none = 0 := rfl
      have h1 : labelWeight (some e.incoming) = 1 + stateRank e.incoming := rfl
      omega
    | some sv =>
      simp only [processLabel, hget] at hch hst
      simp only [processLabel, hget, stateMeasure]
      have hsum := sum_map_set s.savedStates e.label
        (some (update_saved_stack_slots sv e.incoming s.marks).saved) (some sv) hget
      have h1 : labelWeight (some sv) = 1 + stateRank sv := rfl
      have h2 : labelWeight (some (update_saved_stack_slots sv e.incoming s.marks).saved)
          = 1 + stateRank (update_saved_stack_slots sv e.incoming s.marks).saved := rfl
      have hstrict := usss_measure_strict sv e.incoming s.marks hch hst
      omega

/-- `process_label` preserves the state bounds and the label count. -/
theorem processLabel_bounded (size maxDepth : Nat) (s : AState) (e : JoinEvent)
    (hb : stateBounded size maxDepth s)
    (he : e.incoming.length ≤ maxDepth ∧ slotsBounded size e.incoming) :
    stateBounded size maxDepth (processLabel s e).1
      ∧ (processLabel s e).1.savedStates.length = s.savedStates.length := by
  cases hget : s.savedStates.get? e.label with
  | none =>
    simp only [processLabel, hget]
    exact ⟨hb, trivial⟩
  | some o =>
    cases o with
    | none =>
      simp only [processLabel, hget]
      refine ⟨⟨?_, hb.2⟩, List.length_set _ _ _⟩
      intro o ho l hl
      rcases List.mem_or_eq_of_mem_set ho with hmem | hnew
      · exact hb.1 o hmem l hl
      · rw [hnew] at hl
        have : e.incoming = l := by simpa using hl
        rw [← this]
        exact he
    | some sv =>
      have hmem : (some sv) ∈ s.savedStates := List.get?_mem hget
      have hsvb := hb.1 (some sv) hmem sv rfl
      have hub := usss_bound size sv e.incoming s.marks hsvb.2 he.2 hb.2
      simp only [processLabel, hget]
      refine ⟨⟨?_, hub.2⟩, List.length_set _ _ _⟩
      intro o ho l hl
      rcases List.mem_or_eq_of_mem_set ho with hmem2 | hnew
      · exact hb.1 o hmem2 l hl
      · rw [hnew] at hl
        have hle : (update_saved_stack_slots sv e.incoming s.marks).saved = l := by
          simpa using hl
        rw [← hle]
        constructor
        · rw [usss_saved_length]
          exact hsvb.1
        · exact hub.1

end RtlMjit

namespace RtlMjit

/-- The analysis measure never decreases across one full sweep. -/
theorem applySweep_measure_mono (es : List JoinEvent) :
    ∀ s : AState, stateMeasure s ≤ stateMeasure (applySweep s es).1 := by
  induction es with
  | nil =>
    intro s
    exact Nat.le.refl
  | cons e es ih =>
    intro s
    have h1 := processLabel_measure_mono s e
    have h2 := ih (processLabel s e).1
    show stateMeasure s ≤ stateMeasure (applySweep (processLabel s e).1 es).1
    omega

/-- A sweep that reports a change and no staleness strictly increases
the analysis measure. -/
theorem applySweep_measure_strict (es : List JoinEvent) :
    ∀ s : AState, (applySweep s es).2.1 = true → (applySweep s es).2.2 = false →
    stateMeasure s < stateMeasure (applySweep s es).1 := by
  induction es with
  | nil =>
    intro s hch _
    exact Bool.noConfusion hch
  | cons e es ih =>
    intro s hch hst
    have hch2 : ((processLabel s e).2.1 || (applySweep (processLabel s e).1 es).2.1)
        = true := hch
    have hst2 : ((processLabel s e).2.2 || (applySweep (processLabel s e).1 es).2.2)
        = false := hst
    simp only [Bool.or_eq_true] at hch2
    obtain ⟨hsta, hstb⟩ := Bool.or_eq_false_iff.mp hst2
    show stateMeasure s < stateMeasure (applySweep (processLabel s e).1 es).1
    cases hch2 with
    | inl h =>
      have hhead := processLabel_measure_strict s e h hsta
      have htail := applySweep_measure_mono es (processLabel s e).1
      omega
    | inr h =>
      have hhead := processLabel_measure_mono s e
      have htail := ih (processLabel s e).1 h hstb
      omega

/-- One full sweep preserves the state bounds and the label count. -/
theorem applySweep_bounded (size maxDepth : Nat) (es : List JoinEvent) :
    ∀ s : AState, stateBounded size maxDepth s → sweepBounded size maxDepth es →
    stateBounded size maxDepth (applySweep s es).1
      ∧ (applySweep s es).1.savedStates.length = s.savedStates.length := by
  induction es with
  | nil =>
    intro s hb _
    exact ⟨hb, rfl⟩
  | cons e es ih =>
    intro s hb hsw
    have hhead := processLabel_bounded size maxDepth s e hb (hsw e (List.mem_cons_self _ _))
    have htail := ih (processLabel s e).1 hhead.1
      (fun x hx => hsw x (List.mem_cons_of_mem _ hx))
    refine ⟨htail.1, ?_⟩
    show (applySweep (processLabel s e).1 es).1.savedStates.length = _
    rw [htail.2, hhead.2]

/-- Every saved-slot list of a bounded state weighs at most
`1 + 2 * maxDepth`. -/
theorem stateRank_le (l : List StackSlot) : stateRank l ≤ 2 * l.length := by
  induction l with
  | nil => exact Nat.le.refl
  | cons a as ih =>
    have h1 : stateRank (a :: as) = slotRank a.mode + stateRank as := rfl
    have h2 := slotRank_le_two a.mode
    rw [h1, List.length_cons]
    omega

/-- Weight bound for one label entry. -/
theorem labelWeight_le (maxDepth : Nat) (o : Option (List StackSlot))
    (h : ∀ l, o = some l → l.length ≤ maxDepth) :
    labelWeight o ≤ 1 + 2 * maxDepth := by
  cases o with
  | none =>
    have h0 : labelWeight none = 0 := rfl
    omega
  | some l =>
    have hl := h l rfl
    have h1 : labelWeight (some l) = 1 + stateRank l := rfl
    have h2 := stateRank_le l
    omega

/-- Sum of entry weights is bounded by the label count times the
per-entry bound. -/
theorem sum_map_le (B : Nat) (l : List (Option (List StackSlot)))
    (h : ∀ o ∈ l, labelWeight o ≤ B) :
    (l.map labelWeight).sum ≤ l.length * B := by
  induction l with
  | nil => simp
  | cons a as ih =>
    have h1 := h a (List.mem_cons_self _ _)
    have h2 := ih (fun o ho => h o (List.mem_cons_of_mem _ ho))
    simp only [List.map, List.sum_cons, List.length_cons]
    have h3 : (as.length + 1) * B = as.length * B + B := by ring
    omega

/-- The analysis measure of a bounded state is bounded by the program
size. -/
theorem stateMeasure_le (size maxDepth : Nat) (s : AState)
    (hb : stateBounded size maxDepth s) :
    stateMeasure s ≤ s.savedStates.length * (1 + 2 * maxDepth) + size := by
  have h1 : (s.savedStates.map labelWeight).sum
      ≤ s.savedStates.length * (1 + 2 * maxDepth) :=
    sum_map_le _ _ (fun o ho => labelWeight_le _ o (fun l hl => (hb.1 o ho l hl).1))
  have h2 : s.marks.card ≤ size := by
    have hc := Finset.card_le_card hb.2
    simpa using hc
  have h3 : stateMeasure s = (s.savedStates.map labelWeight).sum + s.marks.card := rfl
  omega

/-- A run in which every sweep reports a change and no step re-marks an
already-marked producer is bounded by the measure headroom. -/
theorem sweeps_length_le (size maxDepth : Nat) (sweeps : List (List JoinEvent)) :
    ∀ s : AState, stateBounded size maxDepth s →
    (∀ sw ∈ sweeps, sweepBounded size maxDepth sw) →
    (∀ fl ∈ sweepFlags s sweeps, fl.1 = true ∧ fl.2 = false) →
    sweeps.length + stateMeasure s
      ≤ s.savedStates.length * (1 + 2 * maxDepth) + size := by
  induction sweeps with
  | nil =>
    intro s hb _ _
    simpa using stateMeasure_le size maxDepth s hb
  | cons sw rest ih =>
    intro s hb hsw hfl
    have hcons : sweepFlags s (sw :: rest)
        = ((applySweep s sw).2.1, (applySweep s sw).2.2)
          :: sweepFlags (applySweep s sw).1 rest := rfl
    have hflhead : (applySweep s sw).2.1 = true ∧ (applySweep s sw).2.2 = false := by
      have h := hfl ((applySweep s sw).2.1, (applySweep s sw).2.2)
        (by rw [hcons]; exact List.mem_cons_self _ _)
      exact h
    have hstrict := applySweep_measure_strict sw s hflhead.1 hflhead.2
    have hbp := applySweep_bounded size maxDepth sw s hb (hsw sw (List.mem_cons_self _ _))
    have htail := ih (applySweep s sw).1 hbp.1
      (fun w hw => hsw w (List.mem_cons_of_mem _ hw))
      (fun fl hfl2 => hfl fl (by rw [hcons]; exact List.mem_cons_of_mem _ hfl2))
    rw [hbp.2] at htail
    simp only [List.length_cons]
    omega

end RtlMjit

namespace RtlMjit

/-- **C3.** At a control-flow join, a slot whose descriptor differs
between the saved and incoming states with neither side already
forced-temporary is forced: one `update_saved_stack_slots` call marks
the saved-side producer and sets both the saved and the in-flight slot to
forced-temporary; when the label is reached again with the same incoming
descriptor, the incoming-side producer is marked as well.  At the fixed
point (`changed_p` false), no slot pair retains differing unmaterialized
descriptors: every pair has an unset (`ANY`) incoming side, agrees
exactly, or is forced-temporary on both sides. -/
theorem c3_join_forcing (saved stack : List StackSlot) (marks : Finset Nat)
    (i : Nat) (sv st : StackSlot)
    (hsv : saved[i]? = some sv) (hst : stack[i]? = some st)
    (hd : stack_slot_eq sv st = false)
    (hsvt : sv.mode ≠ .temp) (hstt : st.mode ≠ .temp)
    (hsva : sv.mode ≠ .any) (hsta : st.mode ≠ .any) :
    (sv.source_insn_pos ∈ (update_saved_stack_slots saved stack marks).marks
      ∧ (update_saved_stack_slots saved stack marks).saved[i]?
          = some (⟨.temp, sv.source_insn_pos⟩ : StackSlot)
      ∧ (update_saved_stack_slots saved stack marks).stack[i]?
          = some (⟨.temp, sv.source_insn_pos⟩ : StackSlot)
      ∧ (update_saved_stack_slots saved stack marks).changed = true)
    ∧ st.source_insn_pos ∈ (update_saved_stack_slots
        (update_saved_stack_slots saved stack marks).saved stack
        (update_saved_stack_slots saved stack marks).marks).marks
    ∧ (∀ (saved2 stack2 : List StackSlot) (marks2 : Finset Nat),
        (update_saved_stack_slots saved2 stack2 marks2).changed = false →
        ∀ (k : Nat) (a b : StackSlot), saved2[k]? = some a → stack2[k]? = some b →
          b.mode = .any ∨ stack_slot_eq a b = true
            ∨ (a.mode = .temp ∧ b.mode = .temp)) := by
  obtain ⟨h1, h2, h3, h4⟩ :=
    usss_forces saved stack marks i sv st hsv hst hsta hsva hd hsvt
  refine ⟨⟨h1, h2, h3, h4⟩, ?_, ?_⟩
  · exact usss_marks_incoming (update_saved_stack_slots saved stack marks).saved
      stack (update_saved_stack_slots saved stack marks).marks i
      ⟨.temp, sv.source_insn_pos⟩ st h2 hst rfl hstt hsta
  · intro saved2 stack2 marks2 hch k a b ha hb2
    exact usss_stable saved2 stack2 marks2 hch k a b ha hb2

theorem c3_join_forcing_witness :
    ((0 : Nat) ∈ (update_saved_stack_slots
        [(⟨.val 5, 0⟩ : StackSlot)] [(⟨.val 6, 1⟩ : StackSlot)] ∅).marks)
    ∧ ((1 : Nat) ∈ (update_saved_stack_slots
        (update_saved_stack_slots
          [(⟨.val 5, 0⟩ : StackSlot)] [(⟨.val 6, 1⟩ : StackSlot)] ∅).saved
        [(⟨.val 6, 1⟩ : StackSlot)]
        (update_saved_stack_slots
          [(⟨.val 5, 0⟩ : StackSlot)] [(⟨.val 6, 1⟩ : StackSlot)] ∅).marks).marks) := by
  have h := c3_join_forcing [(⟨.val 5, 0⟩ : StackSlot)] [(⟨.val 6, 1⟩ : StackSlot)] ∅
    0 ⟨.val 5, 0⟩ ⟨.val 6, 1⟩ (by decide) (by decide) (by decide) (by decide)
    (by decide) (by decide) (by decide)
  exact ⟨h.1.1, h.2.1⟩

end RtlMjit


namespace RtlMjit

/-- C8 counterexample: the fixed-point iteration of
`find_stack_values_on_labels` does not terminate on every input.  On the
sequence documented at `lassoState`, every sweep from the third on
processes the joins `lassoSweep` in state `lassoState` and reproduces
`lassoState` exactly — the only `changed_p` contribution is the
saved-`TEMP`-versus-incoming-`VAL` branch of `update_saved_stack_slots`
(`rtl_gen.c:518-526`) re-marking the already-marked producer 7 — yet the
sweep reports `stack_on_label_change_p`, so the do-while loop never
exits: runs of every length consist of sweeps that all report a change
while the persistent state never moves. -/
theorem c8_nontermination_lasso :
    (applySweep lassoState lassoSweep).1 = lassoState
    ∧ (applySweep lassoState lassoSweep).2.1 = true
    ∧ ∀ n : Nat,
        (sweepFlags lassoState (List.replicate n lassoSweep)).length = n
        ∧ ∀ fl ∈ sweepFlags lassoState (List.replicate n lassoSweep),
            fl.1 = true := by
  refine ⟨by decide, by decide, ?_⟩
  intro n
  induction n with
  | zero =>
    refine ⟨rfl, ?_⟩
    intro fl h
    simp [sweepFlags] at h
  | succ m ih =>
    have hrep : List.replicate (m + 1) lassoSweep
        = lassoSweep :: List.replicate m lassoSweep := rfl
    have hcons : sweepFlags lassoState (lassoSweep :: List.replicate m lassoSweep)
        = ((applySweep lassoState lassoSweep).2.1,
            (applySweep lassoState lassoSweep).2.2)
          :: sweepFlags (applySweep lassoState lassoSweep).1
              (List.replicate m lassoSweep) := rfl
    have hfix : (applySweep lassoState lassoSweep).1 = lassoState := by decide
    rw [hrep, hcons, hfix]
    refine ⟨?_, ?_⟩
    · rw [List.length_cons, ih.1]
    · intro fl h
      rcases List.mem_cons.mp h with h1 | h2
      · rw [h1]
        decide
      · exact ih.2 fl h2

end RtlMjit
